import Mathlib

/-!
Verification of the classification-forest editor (src/src/App.tsx).

The data model and each operation below are translated from the source file:
nodes are `{id, name, children}` records, a forest is an ordered list of root
nodes, and every mutating handler clones the forest and produces a replacement
snapshot, which we model as pure functions from forests (plus the relevant
pieces of component state) to forests.
-/

set_option maxHeartbeats 1000000

/-- `type TreeNode = { id: string; name: string; children: TreeNode[] }` -/
inductive TreeNode : Type where
  | mk (id : String) (name : String) (children : List TreeNode)

/-- `type Forest = TreeNode[]` -/
abbrev Forest := List TreeNode

def TreeNode.id : TreeNode → String
  | .mk i _ _ => i

def TreeNode.name : TreeNode → String
  | .mk _ n _ => n

def TreeNode.children : TreeNode → List TreeNode
  | .mk _ _ c => c

/-- Preorder list of the ids of every node of every tree in the list
(the id sets consulted by the DFS helpers in the source). -/
def idsList : List TreeNode → List String
  | [] => []
  | .mk i _ cs :: ns => i :: (idsList cs ++ idsList ns)

/-- Preorder ids of a single subtree. -/
def subtreeIds (t : TreeNode) : List String :=
  t.id :: idsList t.children

/-- Every node (as a value, with its whole subtree) reachable in the list,
in preorder. -/
def allNodes : List TreeNode → List TreeNode
  | [] => []
  | .mk i nm cs :: ns => .mk i nm cs :: (allNodes cs ++ allNodes ns)

/-- The `node` component of `findNodeAndParent(forest, id)`: first node with
the given id in a preorder DFS. -/
def findNode : List TreeNode → String → Option TreeNode
  | [], _ => none
  | .mk i nm cs :: ns, tid =>
    if i = tid then some (.mk i nm cs)
    else
      match findNode cs tid with
      | some r => some r
      | none => findNode ns tid

/-- The inner DFS of `isDescendant`: does any node of the list (searched with
its subtrees) carry the given id? -/
def containsId : List TreeNode → String → Bool
  | [], _ => false
  | .mk i _ cs :: ns, tid => i = tid || containsId cs tid || containsId ns tid

/-- `isDescendant(forest, ancestorId, maybeDescendantId)`: find the ancestor
node, then DFS its children for the candidate id; `false` when the ancestor
is absent. -/
def isDescendant (forest : Forest) (ancestorId maybeDescendantId : String) : Bool :=
  match findNode forest ancestorId with
  | none => false
  | some anc => containsId anc.children maybeDescendantId

/-- `detachNode`: remove the first preorder node with the given id and
return the updated list together with the removed node. -/
def detachList : List TreeNode → String → Option (List TreeNode × TreeNode)
  | [], _ => none
  | .mk i nm cs :: ns, tid =>
    if i = tid then some (ns, .mk i nm cs)
    else
      match detachList cs tid with
      | some (cs2, d) => some (.mk i nm cs2 :: ns, d)
      | none =>
        match detachList ns tid with
        | some (ns2, d) => some (.mk i nm cs :: ns2, d)
        | none => none

/-- `findNodeAndParent(forest, targetId)` followed by
`target.children.push(...ks)`: append `ks` to the children of the first
preorder node with the given id; `none` when the id is absent. -/
def appendChildList : List TreeNode → String → List TreeNode → Option (List TreeNode)
  | [], _, _ => none
  | .mk i nm cs :: ns, tid, ks =>
    if i = tid then some (.mk i nm (cs ++ ks) :: ns)
    else
      match appendChildList cs tid ks with
      | some cs2 => some (.mk i nm cs2 :: ns)
      | none => (appendChildList ns tid ks).map (.mk i nm cs :: ·)

/-- `moveNodeAsChild(forest, draggingId, targetId)` (drag-and-drop commit). -/
def moveNodeAsChild (forest : Forest) (draggingId targetId : String) : Forest × Bool :=
  if draggingId = targetId then (forest, false)
  else if isDescendant forest draggingId targetId then (forest, false)
  else
    match detachList forest draggingId with
    | none => (forest, false)
    | some (without, detached) =>
      match appendChildList without targetId [detached] with
      | none => (forest, false)
      | some f2 => (f2, true)

/-- The removal step shared by `deleteNodeAndChildren` and
`confirmReassignChildren` when the deleted node has a parent:
`parent.children = parent.children.filter((c) => c.id !== nodeId)`,
where the parent is the one reported by `findNodeAndParent` for the first
preorder occurrence of the id. -/
def removeChildScan : List TreeNode → String → Option (List TreeNode)
  | [], _ => none
  | .mk i nm cs :: ns, tid =>
    if i = tid then
      some ((TreeNode.mk i nm cs :: ns).filter (fun x => !(x.id = tid : Bool)))
    else
      match removeChildScan cs tid with
      | some cs2 => some (.mk i nm cs2 :: ns)
      | none => (removeChildScan ns tid).map (.mk i nm cs :: ·)

/-- The removal step at the root level: when `findNodeAndParent` reports no
parent, `updated.findIndex((n) => n.id === nodeId)` is spliced out; otherwise
the parent's children are filtered (see `removeChildScan`). -/
def removeRoot : List TreeNode → String → Option (List TreeNode)
  | [], _ => none
  | .mk i nm cs :: ns, tid =>
    if i = tid then some ns
    else
      match removeChildScan cs tid with
      | some cs2 => some (.mk i nm cs2 :: ns)
      | none => (removeRoot ns tid).map (.mk i nm cs :: ·)

/-- Forest effect of the removal performed by `deleteNodeAndChildren`
(lines 515-528): remove the first preorder node with the given id together
with its whole subtree; the forest is unchanged when the id is absent. -/
def removeNode (forest : Forest) (tid : String) : Forest :=
  match removeRoot forest tid with
  | some f2 => f2
  | none => forest

/-- Forest effect of `confirmReassignChildren` (lines 546-564): reject self
and descendant targets, then append the node's children to the target and
remove the node itself. -/
def confirmReassignChildren (forest : Forest) (nodeId targetId : String) : Forest :=
  if targetId = nodeId then forest
  else if isDescendant forest nodeId targetId then forest
  else
    match findNode forest nodeId, findNode forest targetId with
    | some node, some _ =>
      match appendChildList forest targetId node.children with
      | some f1 => removeNode f1 nodeId
      | none => forest
    | _, _ => forest

/-- Specification transform for cascade deletion: drop every node carrying
the given id together with its whole subtree, keeping everything else in
order. With unique ids this is exactly "remove the node and its subtree";
the operational `removeNode` is proved equal to it below. -/
def rmAll (nId : String) : List TreeNode → List TreeNode
  | [] => []
  | .mk i nm cs :: ns =>
    if i = nId then rmAll nId ns
    else .mk i nm (rmAll nId cs) :: rmAll nId ns

/-- Specification transform for the reassign step: append `ks` to the
children of every node carrying the target id (with unique ids, the one
target node). -/
def apAll (tId : String) (ks : List TreeNode) : List TreeNode → List TreeNode
  | [] => []
  | .mk i nm cs :: ns =>
    .mk i nm (apAll tId ks cs ++ if i = tId then ks else []) :: apAll tId ks ns

/-- `buildVisibleForest(forest, collapsedIds)`: a collapsed node keeps its
id and name but loses its children in the projected view. -/
def buildVisibleForest : Forest → List String → Forest
  | [], _ => []
  | .mk i nm cs :: ns, collapsedIds =>
    (if i ∈ collapsedIds then TreeNode.mk i nm []
     else TreeNode.mk i nm (buildVisibleForest cs collapsedIds)) ::
      buildVisibleForest ns collapsedIds

/-- `type Pos = { level: number; y: number }`; `y` is modelled as an exact
rational (the source computes it in JavaScript numbers). -/
structure Pos where
  level : Nat
  y : Rat
deriving DecidableEq

mutual

/-- The `walk(node, level)` closure of `layoutForest`: returns the position
entries recorded for the subtree (in `positions.set` order), the updated
forest-wide `leafY` counter, and the node's own `y`. -/
def walkNode : TreeNode → Nat → Nat → List (String × Pos) × Nat × Rat
  | .mk i _ [], level, leafY => ([(i, ⟨level, (leafY : Rat)⟩)], leafY + 1, (leafY : Rat))
  | .mk i _ (c :: cs), level, leafY =>
    let r := walkList (c :: cs) (level + 1) leafY
    let y := r.2.2.sum / (max r.2.2.length 1 : Rat)
    (r.1 ++ [(i, ⟨level, y⟩)], r.2.1, y)

/-- `nodes.map((c) => walk(c, level))` with the shared `leafY` counter
threaded left to right; also returns the list of child `y`s. -/
def walkList : List TreeNode → Nat → Nat → List (String × Pos) × Nat × List Rat
  | [], _, leafY => ([], leafY, [])
  | t :: ts, level, leafY =>
    let a := walkNode t level leafY
    let b := walkList ts level a.2.1
    (a.1 ++ b.1, b.2.1, a.2.2 :: b.2.2)

end

/-- `layoutForest(forest)`: the `positions` map, as its list of `set` calls
in order (a later entry for an id overwrites an earlier one). -/
def layoutForest (forest : Forest) : List (String × Pos) :=
  (walkList forest 0 0).1

/-- `positions.get(id)`: the value of the last `set` for the id, if any. -/
def posGet : List (String × Pos) → String → Option Pos
  | [], _ => none
  | e :: es, j =>
    match posGet es j with
    | some p => some p
    | none => if e.1 = j then some e.2 else none

/-- Depth of the first preorder node with the given id (roots at 0);
this is the depth of a node from its own root. -/
def depthIn : List TreeNode → String → Option Nat
  | [], _ => none
  | .mk i _ cs :: ns, j =>
    if i = j then some 0
    else
      match depthIn cs j with
      | some d => some (d + 1)
      | none => depthIn ns j

/-- Preorder list of the ids of the leaves. -/
def leafIds : List TreeNode → List String
  | [] => []
  | .mk i _ [] :: ns => i :: leafIds ns
  | .mk _ _ (c :: cs) :: ns => leafIds (c :: cs) ++ leafIds ns

/-- The character class of `escapeRegExp`:
`/[.*+?^${}()|[\]\\]/g`. -/
def metaChars : List Char :=
  ['.', '*', '+', '?', '^', '$', Char.ofNat 123, Char.ofNat 125,
   '(', ')', '|', '[', ']', '\\']

/-- `escapeRegExp`, character by character: every character of the class is
replaced by itself preceded by a backslash. -/
def escapeChars : List Char → List Char
  | [] => []
  | c :: cs =>
    if c ∈ metaChars then '\\' :: c :: escapeChars cs
    else c :: escapeChars cs

/-- `const escapeRegExp = (value) => value.replace(/[.*+?^${}()|[\]\\]/g, '\\$&')` -/
def escapeRegExp (value : String) : String :=
  String.mk (escapeChars value.data)

/-- Reading of a regular-expression pattern that denotes a plain sequence of
literal characters: a backslash escapes the following character, and any
unescaped metacharacter puts the pattern outside this literal fragment
(`none`). -/
def parseLiteral : List Char → Option (List Char)
  | [] => some []
  | c :: rest =>
    if c = '\\' then
      match rest with
      | [] => none
      | d :: rest2 => (parseLiteral rest2).map (d :: ·)
    else if c ∈ metaChars then none
    else (parseLiteral rest).map (c :: ·)

def prefixMatch : List Char → List Char → Bool
  | [], _ => true
  | _ :: _, [] => false
  | a :: as, b :: bs => a = b && prefixMatch as bs

def substrMatch : List Char → List Char → Bool
  | pat, [] => pat.isEmpty
  | pat, c :: cs => prefixMatch pat (c :: cs) || substrMatch pat cs

/-- JavaScript `String.prototype.trim()`: strip leading and trailing
whitespace. -/
def jsTrim (s : String) : String :=
  String.mk (((s.data.dropWhile Char.isWhitespace).reverse.dropWhile
    Char.isWhitespace).reverse)

/-- Semantics of `new RegExp(pattern, 'i').test(name)` for patterns in the
literal fragment: the denoted character sequence occurs in `name`, compared
after case folding; a pattern outside the fragment is not modelled and tests
nothing. -/
def regexTestCI (pattern name : String) : Bool :=
  match parseLiteral pattern.data with
  | none => false
  | some lits => substrMatch (lits.map Char.toLower) (name.data.map Char.toLower)

/-- `queryRe` and `isMatch` (lines 693-703): a query that trims to the empty
string compiles to no regex and matches nothing; otherwise the trimmed query
is escaped and compiled case-insensitively. -/
def isMatch (query name : String) : Bool :=
  let q := jsTrim query
  if q = "" then false
  else regexTestCI (escapeRegExp q) name

/-- `type ChangeLogItem = { id: string; at: number; summary: string }` -/
structure ChangeLogItem where
  id : String
  atMs : Nat
  summary : String
deriving DecidableEq

/-- `addChange`: `setChangeLog((prev) => [...prev, {id, at, summary}].slice(-80))` -/
def addChange (log : List ChangeLogItem) (item : ChangeLogItem) : List ChangeLogItem :=
  let l := log ++ [item]
  l.drop (l.length - 80)

/-- `type DragState = { draggingId: string; x: number; y: number }` -/
structure DragState where
  draggingId : String
  x : Int
  y : Int
deriving DecidableEq

/-- The component state touched by the handlers under verification; timers,
DOM refs and the other purely visual fields are external collaborators. -/
structure AppState where
  forest : Forest
  collapsed : List String
  selectedId : Option String
  panelOpen : Bool
  editingNodeId : Option String
  nodeDraft : String
  overlayNodeId : Option String
  changeLog : List ChangeLogItem
  deleteDialogOpen : Bool
  deleteDialogNodeId : Option String
  reassignTargetId : Option String
  drag : Option DragState
  dropTargetId : Option String
  editingGroup : Bool
  editingDimIndex : Option Nat
  groupName : String
  committedAt : Nat
  committedGroupName : String
  justApplied : Bool

/-- `applyChanges` (lines 338-345): record the commit timestamp and the
committed group-label snapshot and clear the ledger. -/
def applyChangesS (s : AppState) (now : Nat) : AppState :=
  { s with committedAt := now, committedGroupName := s.groupName,
           changeLog := [], justApplied := true }

/-- `deleteNodeAndChildren` (lines 515-539) as a state transition; `entry` is
the ledger item built from `uid()`/`Date.now()` and the summary text. -/
def deleteNodeAndChildrenS (s : AppState) (nodeId : String) (entry : ChangeLogItem) :
    AppState :=
  { s with
    forest := removeNode s.forest nodeId,
    collapsed := s.collapsed.filter (fun i => !(i = nodeId : Bool)),
    selectedId := if s.selectedId = some nodeId then none else s.selectedId,
    panelOpen := if s.selectedId = some nodeId then false else s.panelOpen,
    editingNodeId := if s.editingNodeId = some nodeId then none else s.editingNodeId,
    nodeDraft := if s.editingNodeId = some nodeId then "" else s.nodeDraft,
    overlayNodeId := if s.overlayNodeId = some nodeId then none else s.overlayNodeId,
    changeLog := addChange s.changeLog entry }

/-- `confirmReassignChildren` (lines 546-564) as a state transition: the
guards return with the state untouched; on success the forest is replaced,
the dialog is closed and the change is logged. -/
def confirmReassignChildrenS (s : AppState) (entry : ChangeLogItem) : AppState :=
  match s.deleteDialogNodeId, s.reassignTargetId with
  | some nodeId, some targetId =>
    if targetId = nodeId then s
    else if isDescendant s.forest nodeId targetId then s
    else
      match findNode s.forest nodeId, findNode s.forest targetId with
      | some node, some _ =>
        match appendChildList s.forest targetId node.children with
        | some f1 =>
          { s with forest := removeNode f1 nodeId,
                   deleteDialogOpen := false, deleteDialogNodeId := none,
                   reassignTargetId := none,
                   changeLog := addChange s.changeLog entry }
        | none => s
      | _, _ => s
  | _, _ => s

/-- Rename the first preorder node with the given id. -/
def renameFirst : List TreeNode → String → String → Option (List TreeNode)
  | [], _, _ => none
  | .mk i nm cs :: ns, tid, newName =>
    if i = tid then some (.mk i newName cs :: ns)
    else
      match renameFirst cs tid newName with
      | some cs2 => some (.mk i nm cs2 :: ns)
      | none => (renameFirst ns tid newName).map (.mk i nm cs :: ·)

/-- `commitRenameNode` (lines 566-578) as a state transition: a draft that
trims to empty, a missing editing id or a vanished node leave the state
untouched; otherwise the node is renamed in place, the edit state ends and
the change is logged. -/
def commitRenameNodeS (s : AppState) (entry : ChangeLogItem) : AppState :=
  let next := jsTrim s.nodeDraft
  match s.editingNodeId with
  | none => s
  | some eid =>
    if next = "" then s
    else
      match renameFirst s.forest eid next with
      | none => s
      | some f2 =>
        { s with forest := f2, editingNodeId := none, nodeDraft := "",
                 changeLog := addChange s.changeLog entry }

/-- `startDrag` (lines 593-603) as a state transition: rejected while a node
rename is in progress or the delete dialog is open; otherwise the overlay is
dismissed, the side panel closes and a drag session begins. -/
def startDragS (s : AppState) (nodeId : String) (x y : Int) : AppState :=
  if s.editingNodeId.isSome || s.deleteDialogOpen then s
  else
    { s with overlayNodeId := none, panelOpen := false,
             drag := some ⟨nodeId, x, y⟩, dropTargetId := none }

/-- A concrete component state, used to evaluate the theorems below on
explicit inputs. -/
def baseState : AppState :=
  { forest := [TreeNode.mk "a" "A" [TreeNode.mk "b" "B" []], TreeNode.mk "d" "D" []],
    collapsed := [], selectedId := none, panelOpen := false,
    editingNodeId := none, nodeDraft := "", overlayNodeId := none,
    changeLog := [], deleteDialogOpen := false, deleteDialogNodeId := none,
    reassignTargetId := none, drag := none, dropTargetId := none,
    editingGroup := false, editingDimIndex := none, groupName := "Region",
    committedAt := 0, committedGroupName := "Region", justApplied := false }

/-- `baseState` with node `"a"` selected and the delete dialog set up to
reassign its children to `"d"`. -/
def reassignState : AppState :=
  { baseState with
    selectedId := some "a", deleteDialogOpen := true,
    deleteDialogNodeId := some "a", reassignTargetId := some "d" }

/-! ### Induction principle for forests -/

mutual

theorem treeRecAux (P : TreeNode → Prop) (Q : List TreeNode → Prop)
    (hmk : ∀ i nm cs, Q cs → P (.mk i nm cs))
    (hnil : Q []) (hcons : ∀ t ts, P t → Q ts → Q (t :: ts)) :
    ∀ t : TreeNode, P t
  | .mk i nm cs => hmk i nm cs (listRecAux P Q hmk hnil hcons cs)

theorem listRecAux (P : TreeNode → Prop) (Q : List TreeNode → Prop)
    (hmk : ∀ i nm cs, Q cs → P (.mk i nm cs))
    (hnil : Q []) (hcons : ∀ t ts, P t → Q ts → Q (t :: ts)) :
    ∀ l : List TreeNode, Q l
  | [] => hnil
  | t :: ts =>
    hcons t ts (treeRecAux P Q hmk hnil hcons t) (listRecAux P Q hmk hnil hcons ts)

end

/-- Structural induction over a forest, with the hypothesis available both for
the head's children and for the tail. -/
theorem forestInduction (Q : List TreeNode → Prop)
    (hnil : Q [])
    (hcons : ∀ i nm cs ns, Q cs → Q ns → Q (TreeNode.mk i nm cs :: ns)) :
    ∀ l, Q l :=
  listRecAux (fun t => ∀ ns, Q ns → Q (t :: ns)) Q
    (fun i nm cs hcs ns hns => hcons i nm cs ns hcs hns)
    hnil (fun _ ts ht hts => ht ts hts)

/-! ### Basic lemmas about ids, node enumeration and search -/

theorem idsList_append (a b : List TreeNode) :
    idsList (a ++ b) = idsList a ++ idsList b := by
  induction a with
  | nil => simp [idsList]
  | cons x ns ih => cases x with
    | mk i nm cs => simp [idsList, ih]

theorem allNodes_append (a b : List TreeNode) :
    allNodes (a ++ b) = allNodes a ++ allNodes b := by
  induction a with
  | nil => simp [allNodes]
  | cons x ns ih => cases x with
    | mk i nm cs => simp [allNodes, ih]

theorem idsList_eq_map (l : List TreeNode) :
    idsList l = (allNodes l).map TreeNode.id := by
  induction l using forestInduction with
  | hnil => simp [idsList, allNodes]
  | hcons i nm cs ns ihc ihn =>
    simp [idsList, allNodes, ihc, ihn, TreeNode.id]

theorem mem_allNodes_id (l : List TreeNode) (x : TreeNode) (hx : x ∈ allNodes l) :
    x.id ∈ idsList l := by
  rw [idsList_eq_map]
  exact List.mem_map_of_mem _ hx

theorem containsId_iff (l : List TreeNode) (j : String) :
    containsId l j = true ↔ j ∈ idsList l := by
  induction l using forestInduction with
  | hnil => simp [containsId, idsList]
  | hcons i nm cs ns ihc ihn =>
    simp only [containsId, Bool.or_eq_true, decide_eq_true_eq, ihc, ihn, idsList,
      List.mem_cons, List.mem_append, or_assoc]
    constructor
    · rintro (h | h | h)
      · exact Or.inl h.symm
      · exact Or.inr (Or.inl h)
      · exact Or.inr (Or.inr h)
    · rintro (h | h | h)
      · exact Or.inl h.symm
      · exact Or.inr (Or.inl h)
      · exact Or.inr (Or.inr h)

theorem findNode_eq_none (l : List TreeNode) (j : String) :
    findNode l j = none ↔ j ∉ idsList l := by
  induction l using forestInduction with
  | hnil => simp [findNode, idsList]
  | hcons i nm cs ns ihc ihn =>
    by_cases hij : i = j
    · rw [show findNode (TreeNode.mk i nm cs :: ns) j = some (TreeNode.mk i nm cs) by
        rw [findNode]; simp [hij]]
      simp [idsList, hij]
    · simp only [findNode, if_neg hij, idsList, List.mem_cons, List.mem_append]
      cases h : findNode cs j with
      | some r =>
        have : j ∈ idsList cs := by
          by_contra hj
          rw [← ihc] at hj
          simp [h] at hj
        simp [this, Ne.symm hij]
      | none =>
        have hcs : j ∉ idsList cs := ihc.mp h
        simp [ihn, hcs, Ne.symm hij]

theorem findNode_isSome (l : List TreeNode) (j : String) (h : j ∈ idsList l) :
    ∃ x, findNode l j = some x := by
  cases hf : findNode l j with
  | some x => exact ⟨x, rfl⟩
  | none => exact absurd h ((findNode_eq_none l j).mp hf)

theorem findNode_spec (l : List TreeNode) (j : String) (x : TreeNode)
    (h : findNode l j = some x) : x.id = j ∧ x ∈ allNodes l := by
  induction l using forestInduction with
  | hnil => simp [findNode] at h
  | hcons i nm cs ns ihc ihn =>
    simp only [findNode] at h
    by_cases hij : i = j
    · rw [if_pos hij] at h
      obtain rfl : TreeNode.mk i nm cs = x := by simpa using h
      exact ⟨hij, by simp [allNodes]⟩
    · rw [if_neg hij] at h
      cases hcs : findNode cs j with
      | some r =>
        rw [hcs] at h
        obtain rfl : r = x := by simpa using h
        obtain ⟨h1, h2⟩ := ihc hcs
        exact ⟨h1, by simp [allNodes, h2]⟩
      | none =>
        rw [hcs] at h
        obtain ⟨h1, h2⟩ := ihn h
        exact ⟨h1, by simp [allNodes, h2]⟩

theorem mem_allNodes_trans (l : List TreeNode) (x y : TreeNode)
    (hx : x ∈ allNodes l) (hy : y ∈ allNodes x.children) : y ∈ allNodes l := by
  induction l using forestInduction with
  | hnil => simp [allNodes] at hx
  | hcons i nm cs ns ihc ihn =>
    simp only [allNodes, List.mem_cons, List.mem_append] at hx ⊢
    rcases hx with rfl | hx | hx
    · simp only [TreeNode.children] at hy
      exact Or.inr (Or.inl hy)
    · exact Or.inr (Or.inl (ihc hx))
    · exact Or.inr (Or.inr (ihn hx))

theorem subtreeIds_sublist (l : List TreeNode) (x : TreeNode) (hx : x ∈ allNodes l) :
    (subtreeIds x).Sublist (idsList l) := by
  induction l using forestInduction with
  | hnil => simp [allNodes] at hx
  | hcons i nm cs ns ihc ihn =>
    simp only [allNodes, List.mem_cons, List.mem_append] at hx
    rcases hx with rfl | hx | hx
    · simp only [subtreeIds, idsList, TreeNode.id, TreeNode.children]
      exact List.Sublist.cons₂ _ (List.sublist_append_left _ _)
    · exact List.Sublist.trans (ihc hx)
        (by simp only [idsList]
            exact List.Sublist.cons _ (List.sublist_append_left _ _))
    · exact List.Sublist.trans (ihn hx)
        (by simp only [idsList]
            exact List.Sublist.cons _ (List.sublist_append_right _ _))

theorem allNodes_id_unique (l : List TreeNode) (hnd : (idsList l).Nodup)
    (x y : TreeNode) (hx : x ∈ allNodes l) (hy : y ∈ allNodes l)
    (hxy : x.id = y.id) : x = y := by
  rw [idsList_eq_map] at hnd
  exact List.inj_on_of_nodup_map hnd hx hy hxy

theorem subtreeIds_nodup (l : List TreeNode) (hnd : (idsList l).Nodup)
    (x : TreeNode) (hx : x ∈ allNodes l) : (subtreeIds x).Nodup :=
  hnd.sublist (subtreeIds_sublist l x hx)

theorem findNode_of_mem (l : List TreeNode) (hnd : (idsList l).Nodup)
    (x : TreeNode) (hx : x ∈ allNodes l) : findNode l x.id = some x := by
  obtain ⟨r, hr⟩ := findNode_isSome l x.id (mem_allNodes_id l x hx)
  obtain ⟨h1, h2⟩ := findNode_spec l x.id r hr
  rw [hr, allNodes_id_unique l hnd r x h2 hx h1]

theorem mem_allNodes_of_sub (l : List TreeNode) (x : TreeNode) (hx : x ∈ allNodes l)
    (j : String) (hj : j ∈ idsList x.children) : j ∈ idsList l := by
  have := subtreeIds_sublist l x hx
  exact this.mem (by simp [subtreeIds, hj])

/-! ### C10: the visibility projection ignores collapsed ids absent from the forest -/

theorem buildVisibleForest_congr (l : List TreeNode) (S1 S2 : List String)
    (h : ∀ i ∈ idsList l, (i ∈ S1 ↔ i ∈ S2)) :
    buildVisibleForest l S1 = buildVisibleForest l S2 := by
  induction l using forestInduction with
  | hnil => simp [buildVisibleForest]
  | hcons i nm cs ns ihc ihn =>
    have hi : i ∈ S1 ↔ i ∈ S2 := h i (by simp [idsList])
    have hcs : ∀ j ∈ idsList cs, (j ∈ S1 ↔ j ∈ S2) := fun j hj =>
      h j (by simp [idsList, hj])
    have hns : ∀ j ∈ idsList ns, (j ∈ S1 ↔ j ∈ S2) := fun j hj =>
      h j (by simp [idsList, hj])
    by_cases hmem : i ∈ S1
    · simp [buildVisibleForest, hmem, hi.mp hmem, ihn hns]
    · have h2 : i ∉ S2 := fun hc => hmem (hi.mpr hc)
      simp [buildVisibleForest, hmem, h2, ihc hcs, ihn hns]

/-- **C10**: for every forest `F` and collapsed set `S`, the visibility
projection only consults ids that occur in `F`:
`project(F, S) = project(F, S ∩ ids(F))`, so stale collapsed ids left behind
by deletions never change the projected view. -/
theorem claim_C10_stale_collapsed_ids (F : Forest) (S : List String) :
    buildVisibleForest F S =
      buildVisibleForest F (S.filter (fun i => decide (i ∈ idsList F))) := by
  apply buildVisibleForest_congr
  intro i hi
  simp [List.mem_filter, hi]

/-! ### C5: the change ledger is capped at 80 entries, commit clears it -/

/-- **C5**: the ledger never exceeds 80 entries; at the 80-entry cap an
append evicts exactly the oldest entry and keeps the most recent 80 in
order; and applying the draft empties the ledger while recording the commit
timestamp and the committed group-label snapshot. -/
theorem claim_C5_ledger_cap (log : List ChangeLogItem) (e : ChangeLogItem)
    (s : AppState) (now : Nat) :
    (addChange log e).length ≤ 80 ∧
    (log.length = 80 → addChange log e = log.tail ++ [e]) ∧
    (applyChangesS s now).changeLog = [] ∧
    (applyChangesS s now).committedAt = now ∧
    (applyChangesS s now).committedGroupName = s.groupName := by
  refine ⟨?_, ?_, rfl, rfl, rfl⟩
  · simp only [addChange, List.length_drop, List.length_append, List.length_singleton]
    omega
  · intro h80
    have hne : log ≠ [] := by
      intro h; rw [h] at h80; simp at h80
    simp only [addChange, List.length_append, List.length_singleton, h80]
    rw [show 80 + 1 - 80 = 1 by norm_num,
      List.drop_append_of_le_length (by omega), List.drop_one]

theorem claim_C5_ledger_cap_witness :
    addChange (List.replicate 80 ⟨"x", 0, "s"⟩) ⟨"y", 1, "t"⟩ =
      (List.replicate 80 (⟨"x", 0, "s"⟩ : ChangeLogItem)).tail ++ [⟨"y", 1, "t"⟩] :=
  (claim_C5_ledger_cap (List.replicate 80 ⟨"x", 0, "s"⟩) ⟨"y", 1, "t"⟩
    baseState 0).2.1 (by simp)

/-! ### C7: which edit states block the start of a drag session -/

/-- **C7 counterexample**: with a rename of the group label in progress
(`editingGroup = true`), no node rename and no open dialog, a pointer-down on
a drag handle is NOT rejected: the controller enters a drag session, contrary
to the claim that any in-progress rename blocks dragging. -/
theorem claim_C7_counterexample :
    ({ baseState with editingGroup := true } : AppState).drag = none ∧
    ({ baseState with editingGroup := true } : AppState).editingGroup = true ∧
    ({ baseState with editingGroup := true } : AppState).editingNodeId = none ∧
    ({ baseState with editingGroup := true } : AppState).deleteDialogOpen = false ∧
    (startDragS { baseState with editingGroup := true } "b" 0 0).drag =
      some ⟨"b", 0, 0⟩ := by
  refine ⟨rfl, rfl, rfl, rfl, ?_⟩
  simp [startDragS, baseState]

/-- **C7 (amended)**: a pointer-down on a drag handle is rejected — the state
is completely unchanged, so the controller stays `Idle` — exactly when a
*node* rename is in progress or the delete dialog is open; renames of a
dimension label or of the group name do not block dragging. -/
theorem claim_C7_amended (s : AppState) (nodeId : String) (x y : Int)
    (h : s.editingNodeId.isSome = true ∨ s.deleteDialogOpen = true) :
    startDragS s nodeId x y = s := by
  unfold startDragS
  rcases h with h | h <;> simp [h]

theorem claim_C7_amended_witness :
    startDragS { baseState with deleteDialogOpen := true } "b" 0 0 =
      { baseState with deleteDialogOpen := true } :=
  claim_C7_amended _ "b" 0 0 (Or.inr rfl)

/-! ### C9: a node-rename commit whose draft trims to empty is a no-op -/

/-- **C9**: when the rename draft trims to the empty string, committing the
node rename changes nothing at all: the forest, the edit-in-progress state
and the change ledger are all left exactly as they were. -/
theorem claim_C9_empty_rename_noop (s : AppState) (entry : ChangeLogItem)
    (h : jsTrim s.nodeDraft = "") : commitRenameNodeS s entry = s := by
  unfold commitRenameNodeS
  cases he : s.editingNodeId with
  | none => rfl
  | some eid => simp [h]

theorem claim_C9_empty_rename_noop_witness :
    commitRenameNodeS { baseState with editingNodeId := some "b", nodeDraft := "  " }
      ⟨"e", 0, "m"⟩ =
      { baseState with editingNodeId := some "b", nodeDraft := "  " } :=
  claim_C9_empty_rename_noop _ _ (by decide)

/-! ### C6: which dangling references a deletion clears -/

theorem confirmReassignChildrenS_selectedId (s : AppState) (entry : ChangeLogItem) :
    (confirmReassignChildrenS s entry).selectedId = s.selectedId := by
  unfold confirmReassignChildrenS
  repeat' split
  all_goals rfl

theorem confirmReassignChildrenS_editingNodeId (s : AppState) (entry : ChangeLogItem) :
    (confirmReassignChildrenS s entry).editingNodeId = s.editingNodeId := by
  unfold confirmReassignChildrenS
  repeat' split
  all_goals rfl

theorem confirmReassignChildrenS_overlayNodeId (s : AppState) (entry : ChangeLogItem) :
    (confirmReassignChildrenS s entry).overlayNodeId = s.overlayNodeId := by
  unfold confirmReassignChildrenS
  repeat' split
  all_goals rfl

theorem confirmReassignChildrenS_forest (s : AppState) (entry : ChangeLogItem)
    (nodeId targetId : String) (h1 : s.deleteDialogNodeId = some nodeId)
    (h2 : s.reassignTargetId = some targetId) :
    (confirmReassignChildrenS s entry).forest =
      confirmReassignChildren s.forest nodeId targetId := by
  unfold confirmReassignChildrenS confirmReassignChildren
  simp only [h1, h2]
  by_cases hc1 : targetId = nodeId
  · rw [if_pos hc1, if_pos hc1]
  · rw [if_neg hc1, if_neg hc1]
    by_cases hc2 : isDescendant s.forest nodeId targetId = true
    · rw [if_pos hc2, if_pos hc2]
    · rw [if_neg hc2, if_neg hc2]
      cases hf1 : findNode s.forest nodeId with
      | none =>
        cases hf2 : findNode s.forest targetId with
        | none => simp
        | some td => simp
      | some nd =>
        cases hf2 : findNode s.forest targetId with
        | none => simp
        | some td =>
          cases ha : appendChildList s.forest targetId nd.children with
          | none => simp [ha]
          | some f1 => simp [ha]

theorem reassignState_forest :
    reassignState.forest =
      [TreeNode.mk "a" "A" [TreeNode.mk "b" "B" []], TreeNode.mk "d" "D" []] := rfl

theorem reassign_forest_eval :
    findNode (confirmReassignChildren
      [TreeNode.mk "a" "A" [TreeNode.mk "b" "B" []], TreeNode.mk "d" "D" []]
      "a" "d") "a" = none := by
  simp [confirmReassignChildren, isDescendant, findNode, containsId, appendChildList,
    removeNode, removeRoot, removeChildScan, TreeNode.children, TreeNode.id]

/-- **C6 counterexample**: reassign-deleting the selected node `"a"`
(children re-parented to `"d"`) leaves `selectedId` pointing at `"a"`, an id
that is no longer present in the forest — the deletion does not clear the
selection, contrary to the claim. -/
theorem claim_C6_counterexample :
    reassignState.selectedId = some "a" ∧
    (confirmReassignChildrenS reassignState ⟨"e", 0, "m"⟩).selectedId = some "a" ∧
    findNode (confirmReassignChildrenS reassignState ⟨"e", 0, "m"⟩).forest "a" = none := by
  refine ⟨?_, ?_, ?_⟩
  · rfl
  · rw [confirmReassignChildrenS_selectedId]
    rfl
  · rw [confirmReassignChildrenS_forest reassignState ⟨"e", 0, "m"⟩ "a" "d" rfl rfl,
      reassignState_forest]
    exact reassign_forest_eval

/-- **C6 (amended)**: a cascade delete clears the selection, the node-edit
state and the hovered-overlay reference exactly when they point at the
deleted id itself (references to proper descendants of the deleted node are
not cleared), and a reassign-delete clears none of these references. -/
theorem claim_C6_amended (s : AppState) (nodeId : String) (entry : ChangeLogItem) :
    ((deleteNodeAndChildrenS s nodeId entry).selectedId ≠ some nodeId ∧
     (deleteNodeAndChildrenS s nodeId entry).editingNodeId ≠ some nodeId ∧
     (deleteNodeAndChildrenS s nodeId entry).overlayNodeId ≠ some nodeId) ∧
    (s.selectedId = some nodeId → (deleteNodeAndChildrenS s nodeId entry).panelOpen = false) ∧
    ((confirmReassignChildrenS s entry).selectedId = s.selectedId ∧
     (confirmReassignChildrenS s entry).editingNodeId = s.editingNodeId ∧
     (confirmReassignChildrenS s entry).overlayNodeId = s.overlayNodeId) := by
  refine ⟨⟨?_, ?_, ?_⟩, ?_, ?_, ?_, ?_⟩
  · unfold deleteNodeAndChildrenS
    by_cases h : s.selectedId = some nodeId <;> simp [h]
  · unfold deleteNodeAndChildrenS
    by_cases h : s.editingNodeId = some nodeId <;> simp [h]
  · unfold deleteNodeAndChildrenS
    by_cases h : s.overlayNodeId = some nodeId <;> simp [h]
  · intro h
    unfold deleteNodeAndChildrenS
    simp [h]
  · exact confirmReassignChildrenS_selectedId s entry
  · exact confirmReassignChildrenS_editingNodeId s entry
  · exact confirmReassignChildrenS_overlayNodeId s entry

theorem claim_C6_amended_witness :
    (deleteNodeAndChildrenS { baseState with selectedId := some "a" } "a"
      ⟨"e", 0, "m"⟩).panelOpen = false :=
  (claim_C6_amended { baseState with selectedId := some "a" } "a" ⟨"e", 0, "m"⟩).2.1 rfl

/-! ### C8: the search predicate is literal, case-insensitive substring match -/

theorem parseLiteral_escapeChars (cs : List Char) :
    parseLiteral (escapeChars cs) = some cs := by
  induction cs with
  | nil => simp [escapeChars, parseLiteral]
  | cons c cs ih =>
    by_cases hc : c ∈ metaChars
    · simp [escapeChars, hc, parseLiteral, ih]
    · have hb : ¬ c = '\\' := fun h => hc (by simp [h, metaChars])
      simp only [escapeChars, if_neg hc]
      rw [parseLiteral.eq_def]
      simp [hb, hc, ih]

theorem prefixMatch_iff (p s : List Char) :
    prefixMatch p s = true ↔ ∃ r, s = p ++ r := by
  induction p generalizing s with
  | nil => simp [prefixMatch]
  | cons a as ih =>
    cases s with
    | nil =>
      simp only [prefixMatch, List.cons_append, Bool.false_eq_true, false_iff]
      rintro ⟨r, hr⟩
      exact List.cons_ne_nil _ _ hr.symm
    | cons b bs =>
      simp only [prefixMatch, Bool.and_eq_true, decide_eq_true_eq, ih,
        List.cons_append, List.cons.injEq]
      constructor
      · rintro ⟨rfl, r, rfl⟩
        exact ⟨r, rfl, rfl⟩
      · rintro ⟨r, rfl, rfl⟩
        exact ⟨rfl, r, rfl⟩

theorem substrMatch_iff (p s : List Char) :
    substrMatch p s = true ↔ ∃ l r, s = l ++ p ++ r := by
  induction s with
  | nil =>
    simp only [substrMatch, List.isEmpty_iff]
    constructor
    · rintro rfl
      exact ⟨[], [], rfl⟩
    · rintro ⟨l, r, hr⟩
      rcases List.append_eq_nil.mp (List.append_eq_nil.mp hr.symm).1 with ⟨-, h2⟩
      exact h2
  | cons c cs ih =>
    simp only [substrMatch, Bool.or_eq_true, prefixMatch_iff, ih]
    constructor
    · rintro (⟨r, hr⟩ | ⟨l, r, hr⟩)
      · exact ⟨[], r, by simpa using hr⟩
      · exact ⟨c :: l, r, by simp [hr]⟩
    · rintro ⟨l, r, hr⟩
      cases l with
      | nil => exact Or.inl ⟨r, by simpa using hr⟩
      | cons x xs =>
        rw [List.cons_append, List.cons_append, List.cons.injEq] at hr
        exact Or.inr ⟨xs, r, hr.2⟩

/-- **C8**: an empty or whitespace-only query matches no name at all, and any
other query matches a name exactly when the query's literal text (with every
regular-expression metacharacter taken literally) occurs in the name,
compared case-insensitively. -/
theorem claim_C8_literal_search (query name : String) :
    (jsTrim query = "" → isMatch query name = false) ∧
    (jsTrim query ≠ "" →
      (isMatch query name = true ↔
        ∃ l r, name.data.map Char.toLower =
          l ++ (jsTrim query).data.map Char.toLower ++ r)) := by
  constructor
  · intro h
    simp [isMatch, h]
  · intro h
    have h1 : isMatch query name = regexTestCI (escapeRegExp (jsTrim query)) name := by
      simp [isMatch, h]
    have h2 : (escapeRegExp (jsTrim query)).data = escapeChars (jsTrim query).data := rfl
    rw [h1]
    unfold regexTestCI
    rw [h2, parseLiteral_escapeChars]
    exact substrMatch_iff _ _

theorem claim_C8_literal_search_witness :
    isMatch "a+b(c)" "xA+B(C)y" = true ∧ isMatch "  " "a" = false := by
  constructor
  · exact ((claim_C8_literal_search "a+b(c)" "xA+B(C)y").2 (by decide)).mpr
      ⟨['x'], ['y'], by decide⟩
  · exact (claim_C8_literal_search "  " "a").1 (by decide)

/-! ### C1: self and descendant targets are rejected with the forest untouched -/

/-- **C1**: for a node `n` present in the forest, moving `n`
(`moveNodeAsChild`) or reassign-deleting `n` (`confirmReassignChildren`) onto
`n` itself or onto any node of `n`'s subtree is rejected proactively:
`moveNodeAsChild` reports no move and returns the forest unchanged, and the
reassign handler leaves the forest exactly as it was. -/
theorem claim_C1_cycle_guard (F : Forest) (n t : String) (nd : TreeNode)
    (hn : findNode F n = some nd) (ht : t = n ∨ t ∈ idsList nd.children) :
    moveNodeAsChild F n t = (F, false) ∧ confirmReassignChildren F n t = F := by
  rcases ht with rfl | ht
  · constructor
    · unfold moveNodeAsChild
      simp
    · unfold confirmReassignChildren
      simp
  · have hdesc : isDescendant F n t = true := by
      unfold isDescendant
      rw [hn]
      exact (containsId_iff _ _).mpr ht
    constructor
    · unfold moveNodeAsChild
      by_cases he : n = t
      · simp [he]
      · simp [he, hdesc]
    · unfold confirmReassignChildren
      by_cases he : t = n
      · simp [he]
      · simp [he, hdesc]

theorem claim_C1_cycle_guard_witness :
    moveNodeAsChild [TreeNode.mk "a" "A" [TreeNode.mk "b" "B" []]] "a" "b" =
      ([TreeNode.mk "a" "A" [TreeNode.mk "b" "B" []]], false) ∧
    confirmReassignChildren [TreeNode.mk "a" "A" [TreeNode.mk "b" "B" []]] "a" "b" =
      [TreeNode.mk "a" "A" [TreeNode.mk "b" "B" []]] :=
  claim_C1_cycle_guard _ "a" "b" (TreeNode.mk "a" "A" [TreeNode.mk "b" "B" []])
    (by simp [findNode]) (Or.inr (by simp [TreeNode.children, idsList]))

/-! ### C3: cascade delete removes exactly the requested subtree -/

theorem mem_allNodes_of_mem (l : List TreeNode) (z : TreeNode) (hz : z ∈ l) :
    z ∈ allNodes l := by
  induction l with
  | nil => simp at hz
  | cons x ns ih =>
    cases x with
    | mk i nm cs =>
      rcases List.mem_cons.mp hz with rfl | hz
      · simp [allNodes]
      · simp [allNodes, ih hz]

theorem rmAll_append (n : String) (a b : List TreeNode) :
    rmAll n (a ++ b) = rmAll n a ++ rmAll n b := by
  induction a with
  | nil => simp [rmAll]
  | cons x ns ih =>
    cases x with
    | mk i nm cs =>
      by_cases hin : i = n <;> simp [rmAll, hin, ih]

theorem rmAll_id (n : String) (l : List TreeNode) (h : n ∉ idsList l) :
    rmAll n l = l := by
  induction l using forestInduction with
  | hnil => simp [rmAll]
  | hcons i nm cs ns ihc ihn =>
    rw [idsList] at h
    simp only [List.mem_cons, List.mem_append] at h
    push_neg at h
    obtain ⟨h1, h2, h3⟩ := h
    simp [rmAll, Ne.symm h1, ihc h2, ihn h3]

theorem not_mem_idsList_rmAll (n : String) (l : List TreeNode) :
    n ∉ idsList (rmAll n l) := by
  induction l using forestInduction with
  | hnil => simp [rmAll, idsList]
  | hcons i nm cs ns ihc ihn =>
    by_cases hin : i = n
    · simpa [rmAll, hin] using ihn
    · simp only [rmAll, if_neg hin, idsList, List.mem_cons, List.mem_append]
      push_neg
      exact ⟨Ne.symm hin, ihc, ihn⟩

theorem removeChildScan_none (l : List TreeNode) (n : String) (h : n ∉ idsList l) :
    removeChildScan l n = none := by
  induction l using forestInduction with
  | hnil => simp [removeChildScan]
  | hcons i nm cs ns ihc ihn =>
    rw [idsList] at h
    simp only [List.mem_cons, List.mem_append] at h
    push_neg at h
    obtain ⟨h1, h2, h3⟩ := h
    simp [removeChildScan, Ne.symm h1, ihc h2, ihn h3]

theorem removeRoot_none (l : List TreeNode) (n : String) (h : n ∉ idsList l) :
    removeRoot l n = none := by
  induction l with
  | nil => simp [removeRoot]
  | cons x ns ih =>
    cases x with
    | mk i nm cs =>
      rw [idsList] at h
      simp only [List.mem_cons, List.mem_append] at h
      push_neg at h
      obtain ⟨h1, h2, h3⟩ := h
      simp [removeRoot, Ne.symm h1, removeChildScan_none cs n h2, ih h3]

theorem removeScan_eq_rmAll (l : List TreeNode) (n : String)
    (hc : (idsList l).count n ≤ 1) (hm : n ∈ idsList l) :
    removeChildScan l n = some (rmAll n l) ∧ removeRoot l n = some (rmAll n l) := by
  induction l using forestInduction with
  | hnil => simp [idsList] at hm
  | hcons i nm cs ns ihc ihn =>
    rw [idsList] at hc hm
    by_cases hin : i = n
    · subst hin
      have h0 : (idsList cs ++ idsList ns).count i = 0 := by
        rw [List.count_cons_self] at hc
        omega
      rw [List.count_append] at h0
      have hncs : i ∉ idsList cs := by
        rw [← List.count_eq_zero]
        omega
      have hnns : i ∉ idsList ns := by
        rw [← List.count_eq_zero]
        omega
      have hfil : ns.filter (fun x => !(x.id = i : Bool)) = ns := by
        apply List.filter_eq_self.mpr
        intro z hz
        have hzi : z.id ≠ i := fun h =>
          hnns (h ▸ mem_allNodes_id ns z (mem_allNodes_of_mem ns z hz))
        simp [hzi]
      have hrm : rmAll i (TreeNode.mk i nm cs :: ns) = ns := by
        simp [rmAll, rmAll_id i ns hnns]
      constructor
      · simp [removeChildScan, List.filter_cons, TreeNode.id, hrm]
        intro z hz h
        have h2 : z.id = i := h
        exact hnns (h2 ▸ mem_allNodes_id ns z (mem_allNodes_of_mem ns z hz))
      · simp [removeRoot, hrm]
    · have hm2 : n ∈ idsList cs ++ idsList ns := by
        rcases List.mem_cons.mp hm with h | h
        · exact absurd h.symm hin
        · exact h
      have hc2 : (idsList cs ++ idsList ns).count n ≤ 1 := by
        rw [List.count_cons_of_ne (fun h => hin h.symm)] at hc
        exact hc
      rw [List.count_append] at hc2
      rcases List.mem_append.mp hm2 with hmcs | hmns
      · have hnns : n ∉ idsList ns := by
          have h1 : 1 ≤ (idsList cs).count n := List.one_le_count_iff.mpr hmcs
          rw [← List.count_eq_zero]
          omega
        obtain ⟨hscan, -⟩ := ihc (by omega) hmcs
        constructor
        · simp [removeChildScan, hin, hscan, rmAll, rmAll_id n ns hnns]
        · simp [removeRoot, hin, hscan, rmAll, rmAll_id n ns hnns]
      · by_cases hmcs : n ∈ idsList cs
        · have h1 : 1 ≤ (idsList cs).count n := List.one_le_count_iff.mpr hmcs
          have h2 : 1 ≤ (idsList ns).count n := List.one_le_count_iff.mpr hmns
          omega
        · obtain ⟨hscan, hroot⟩ := ihn (by
            have h1 : (idsList cs).count n = 0 := List.count_eq_zero.mpr hmcs
            omega) hmns
          constructor
          · simp [removeChildScan, hin, removeChildScan_none cs n hmcs, hscan,
              rmAll, rmAll_id n cs hmcs]
          · simp [removeRoot, hin, removeChildScan_none cs n hmcs, hroot,
              rmAll, rmAll_id n cs hmcs]

theorem removeNode_eq_rmAll (F : Forest) (n : String)
    (hnd : (idsList F).Nodup) (hm : n ∈ idsList F) :
    removeNode F n = rmAll n F := by
  obtain ⟨-, hroot⟩ := removeScan_eq_rmAll F n
    (List.nodup_iff_count_le_one.mp hnd n) hm
  simp [removeNode, hroot]

theorem idsList_rmAll (l : List TreeNode) (n : String) (nd : TreeNode)
    (hnd : (idsList l).Nodup) (hf : findNode l n = some nd) :
    idsList (rmAll n l) =
      (idsList l).filter (fun i => decide (¬ i ∈ subtreeIds nd)) := by
  induction l using forestInduction with
  | hnil => simp [findNode] at hf
  | hcons i nm cs ns ihc ihn =>
    rw [idsList] at hnd
    rw [List.nodup_cons] at hnd
    obtain ⟨hi, hnd2⟩ := hnd
    rw [List.nodup_append] at hnd2
    obtain ⟨hndcs, hndns, hdisj⟩ := hnd2
    simp only [List.mem_append] at hi
    push_neg at hi
    obtain ⟨hics, hins⟩ := hi
    simp only [findNode] at hf
    by_cases hin : i = n
    · rw [if_pos hin] at hf
      obtain rfl : TreeNode.mk i nm cs = nd := by simpa using hf
      subst hin
      have hsub : subtreeIds (TreeNode.mk i nm cs) = i :: idsList cs := by
        simp [subtreeIds, TreeNode.id, TreeNode.children]
      have h1 : rmAll i (TreeNode.mk i nm cs :: ns) = ns := by
        simp [rmAll, rmAll_id i ns hins]
      rw [h1, idsList, List.filter_cons, List.filter_append]
      rw [if_neg (by simp [hsub])]
      have hfcs : (idsList cs).filter
          (fun j => decide (¬ j ∈ subtreeIds (TreeNode.mk i nm cs))) = [] :=
        List.filter_eq_nil_iff.mpr (fun j hj => by simp [hsub, hj])
      have hfns : (idsList ns).filter
          (fun j => decide (¬ j ∈ subtreeIds (TreeNode.mk i nm cs))) = idsList ns :=
        List.filter_eq_self.mpr (fun j hj => by
          simp only [decide_eq_true_eq, hsub, List.mem_cons]
          push_neg
          exact ⟨fun h => hins (h ▸ hj), fun h => hdisj h hj⟩)
      rw [hfcs, hfns, List.nil_append]
    · rw [if_neg hin] at hf
      cases hcs : findNode cs n with
      | some r =>
        rw [hcs] at hf
        replace hf : some r = some nd := hf
        injection hf with hr
        rw [hr] at hcs
        obtain ⟨hid, hmem⟩ := findNode_spec cs n nd hcs
        have hncs : n ∈ idsList cs := hid ▸ mem_allNodes_id cs nd hmem
        have hnns : n ∉ idsList ns := fun h => hdisj hncs h
        have hsub : ∀ j ∈ subtreeIds nd, j ∈ idsList cs := fun j hj =>
          (subtreeIds_sublist cs nd hmem).mem hj
        have h1 : rmAll n (TreeNode.mk i nm cs :: ns) =
            TreeNode.mk i nm (rmAll n cs) :: ns := by
          simp [rmAll, hin, rmAll_id n ns hnns]
        rw [h1, idsList, ihc hndcs hcs, idsList]
        rw [List.filter_cons, List.filter_append]
        rw [if_pos (by
          simp only [decide_eq_true_eq]
          exact fun h => hics (hsub i h))]
        have hfns : (idsList ns).filter (fun j => decide (¬ j ∈ subtreeIds nd)) =
            idsList ns :=
          List.filter_eq_self.mpr (fun j hj => by
            simp only [decide_eq_true_eq]
            exact fun h => hdisj (hsub j h) hj)
        rw [hfns]
      | none =>
        rw [hcs] at hf
        replace hf : findNode ns n = some nd := hf
        obtain ⟨hid, hmem⟩ := findNode_spec ns n nd hf
        have hnns : n ∈ idsList ns := hid ▸ mem_allNodes_id ns nd hmem
        have hncs : n ∉ idsList cs := (findNode_eq_none cs n).mp hcs
        have hsub : ∀ j ∈ subtreeIds nd, j ∈ idsList ns := fun j hj =>
          (subtreeIds_sublist ns nd hmem).mem hj
        have h1 : rmAll n (TreeNode.mk i nm cs :: ns) =
            TreeNode.mk i nm cs :: rmAll n ns := by
          simp [rmAll, hin, rmAll_id n cs hncs]
        rw [h1, idsList, ihn hndns hf, idsList]
        rw [List.filter_cons, List.filter_append]
        rw [if_pos (by
          simp only [decide_eq_true_eq]
          exact fun h => hins (hsub i h))]
        have hfcs : (idsList cs).filter (fun j => decide (¬ j ∈ subtreeIds nd)) =
            idsList cs :=
          List.filter_eq_self.mpr (fun j hj => by
            simp only [decide_eq_true_eq]
            exact fun h => hdisj hj (hsub j h))
        rw [hfcs]

theorem mem_rmAll_of_unrelated (l : List TreeNode) (n : String) (m : TreeNode)
    (hm : m ∈ allNodes l) (hn : n ∉ subtreeIds m)
    (hav : ∀ x ∈ allNodes l, x.id = n → m ∉ allNodes x.children) :
    m ∈ allNodes (rmAll n l) := by
  induction l using forestInduction with
  | hnil => simp [allNodes] at hm
  | hcons i nm cs ns ihc ihn =>
    have hmn : m.id ≠ n := fun h => hn (by simp [subtreeIds, h])
    have havcs : ∀ x ∈ allNodes cs, x.id = n → m ∉ allNodes x.children :=
      fun x hx => hav x (by simp [allNodes, hx])
    have havns : ∀ x ∈ allNodes ns, x.id = n → m ∉ allNodes x.children :=
      fun x hx => hav x (by simp [allNodes, hx])
    simp only [allNodes, List.mem_cons, List.mem_append] at hm
    rcases hm with rfl | hm | hm
    · have hine : i ≠ n := hmn
      have hcs : n ∉ idsList cs := fun h => hn (by simp [subtreeIds, TreeNode.children, h])
      simp [rmAll, hine, rmAll_id n cs hcs, allNodes]
    · by_cases hin : i = n
      · exact absurd hm (hav (TreeNode.mk i nm cs) (by simp [allNodes]) hin)
      · simp [rmAll, hin, allNodes, ihc hm havcs]
    · by_cases hin : i = n
      · simp only [rmAll, if_pos hin]
        exact ihn hm havns
      · simp [rmAll, hin, allNodes, ihn hm havns]

theorem mem_rmAll_names (l : List TreeNode) (n : String) (m : TreeNode)
    (hm : m ∈ allNodes l) (hmn : m.id ≠ n)
    (hav : ∀ x ∈ allNodes l, x.id = n → m ∉ allNodes x.children) :
    ∃ m', m' ∈ allNodes (rmAll n l) ∧ m'.id = m.id ∧ m'.name = m.name ∧
      m'.children = rmAll n m.children := by
  induction l using forestInduction with
  | hnil => simp [allNodes] at hm
  | hcons i nm cs ns ihc ihn =>
    have havcs : ∀ x ∈ allNodes cs, x.id = n → m ∉ allNodes x.children :=
      fun x hx => hav x (by simp [allNodes, hx])
    have havns : ∀ x ∈ allNodes ns, x.id = n → m ∉ allNodes x.children :=
      fun x hx => hav x (by simp [allNodes, hx])
    simp only [allNodes, List.mem_cons, List.mem_append] at hm
    rcases hm with rfl | hm | hm
    · have hine : i ≠ n := hmn
      refine ⟨TreeNode.mk i nm (rmAll n cs), ?_, rfl, rfl, rfl⟩
      simp [rmAll, hine, allNodes]
    · by_cases hin : i = n
      · exact absurd hm (hav (TreeNode.mk i nm cs) (by simp [allNodes]) hin)
      · obtain ⟨m', h1, h2, h3, h4⟩ := ihc hm havcs
        exact ⟨m', by simp [rmAll, hin, allNodes, h1], h2, h3, h4⟩
    · by_cases hin : i = n
      · obtain ⟨m', h1, h2, h3, h4⟩ := ihn hm havns
        exact ⟨m', by simp [rmAll, hin, h1], h2, h3, h4⟩
      · obtain ⟨m', h1, h2, h3, h4⟩ := ihn hm havns
        exact ⟨m', by simp [rmAll, hin, allNodes, h1], h2, h3, h4⟩

/-- **C3**: with unique ids and `n` present (found node `nd`), cascade delete
equals the clean transform `rmAll n` that drops exactly `n`'s subtree; the
surviving preorder id sequence is exactly the original with `n`'s subtree ids
removed (so only those ids disappear and the relative order of surviving
roots and siblings is unchanged); every node whose subtree contains neither
`n` nor lies inside `n`'s subtree survives verbatim; and every surviving id
keeps its name, with its children list equal to the original minus the
deleted subtree. -/
theorem claim_C3_cascade_delete (F : Forest) (n : String) (nd : TreeNode)
    (hnd : (idsList F).Nodup) (hf : findNode F n = some nd) :
    removeNode F n = rmAll n F ∧
    idsList (removeNode F n) =
      (idsList F).filter (fun i => decide (¬ i ∈ subtreeIds nd)) ∧
    n ∉ idsList (removeNode F n) ∧
    (∀ m ∈ allNodes F, n ∉ subtreeIds m → m.id ∉ subtreeIds nd →
      m ∈ allNodes (removeNode F n)) ∧
    (∀ m ∈ allNodes F, m.id ∉ subtreeIds nd →
      ∃ m', m' ∈ allNodes (removeNode F n) ∧ m'.id = m.id ∧ m'.name = m.name ∧
        m'.children = rmAll n m.children) := by
  obtain ⟨hid, hmem⟩ := findNode_spec F n nd hf
  have hn : n ∈ idsList F := hid ▸ mem_allNodes_id F nd hmem
  have heq : removeNode F n = rmAll n F := removeNode_eq_rmAll F n hnd hn
  have hav : ∀ m : TreeNode, m.id ∉ subtreeIds nd →
      ∀ x ∈ allNodes F, x.id = n → m ∉ allNodes x.children := by
    intro m hm x hx hxn
    have hxnd : x = nd := allNodes_id_unique F hnd x nd hx hmem (by rw [hxn, hid])
    subst hxnd
    intro hmx
    exact hm (by
      simp only [subtreeIds, List.mem_cons]
      exact Or.inr (mem_allNodes_id x.children m hmx))
  refine ⟨heq, ?_, ?_, ?_, ?_⟩
  · rw [heq]
    exact idsList_rmAll F n nd hnd hf
  · rw [heq]
    exact not_mem_idsList_rmAll n F
  · intro m hm h1 h2
    rw [heq]
    exact mem_rmAll_of_unrelated F n m hm h1 (hav m h2)
  · intro m hm h2
    rw [heq]
    have hmn : m.id ≠ n := fun h => h2 (by simp [subtreeIds, h, hid])
    exact mem_rmAll_names F n m hm hmn (hav m h2)

theorem claim_C3_cascade_delete_witness :
    removeNode [TreeNode.mk "a" "A" [TreeNode.mk "b" "B" []], TreeNode.mk "d" "D" []] "a" =
      rmAll "a" [TreeNode.mk "a" "A" [TreeNode.mk "b" "B" []], TreeNode.mk "d" "D" []] :=
  (claim_C3_cascade_delete _ "a" (TreeNode.mk "a" "A" [TreeNode.mk "b" "B" []])
    (by simp [idsList]) (by simp [findNode])).1

/-! ### C2: reassign-delete re-parents the children and removes the node -/

theorem nodup_parts {i nm : String} {cs ns : List TreeNode}
    (hnd : (idsList (TreeNode.mk i nm cs :: ns)).Nodup) :
    i ∉ idsList cs ∧ i ∉ idsList ns ∧ (idsList cs).Nodup ∧ (idsList ns).Nodup ∧
      (idsList cs).Disjoint (idsList ns) := by
  rw [idsList, List.nodup_cons, List.nodup_append] at hnd
  obtain ⟨hi, h1, h2, h3⟩ := hnd
  simp only [List.mem_append] at hi
  push_neg at hi
  exact ⟨hi.1, hi.2, h1, h2, h3⟩

theorem apAll_id (t : String) (ks : List TreeNode) (l : List TreeNode)
    (h : t ∉ idsList l) : apAll t ks l = l := by
  induction l using forestInduction with
  | hnil => simp [apAll]
  | hcons i nm cs ns ihc ihn =>
    rw [idsList] at h
    simp only [List.mem_cons, List.mem_append] at h
    push_neg at h
    obtain ⟨h1, h2, h3⟩ := h
    simp [apAll, Ne.symm h1, ihc h2, ihn h3]

theorem idsList_apAll (t : String) (ks : List TreeNode) (l : List TreeNode)
    (n : String) (hks : n ∉ idsList ks) :
    (idsList (apAll t ks l)).count n = (idsList l).count n := by
  induction l using forestInduction with
  | hnil => simp [apAll]
  | hcons i nm cs ns ihc ihn =>
    have hks0 : (idsList ks).count n = 0 := List.count_eq_zero.mpr hks
    by_cases hit : i = t <;>
      simp [apAll, hit, idsList, idsList_append, List.count_append, List.count_cons,
        ihc, ihn, hks0]

theorem appendChildList_none (l : List TreeNode) (t : String) (ks : List TreeNode)
    (h : t ∉ idsList l) : appendChildList l t ks = none := by
  induction l using forestInduction with
  | hnil => simp [appendChildList]
  | hcons i nm cs ns ihc ihn =>
    rw [idsList] at h
    simp only [List.mem_cons, List.mem_append] at h
    push_neg at h
    obtain ⟨h1, h2, h3⟩ := h
    simp [appendChildList, Ne.symm h1, ihc h2, ihn h3]

theorem appendChildList_eq_apAll (l : List TreeNode) (t : String) (ks : List TreeNode)
    (hnd : (idsList l).Nodup) (hm : t ∈ idsList l) :
    appendChildList l t ks = some (apAll t ks l) := by
  induction l using forestInduction with
  | hnil => simp [idsList] at hm
  | hcons i nm cs ns ihc ihn =>
    obtain ⟨hics, hins, hndcs, hndns, hdisj⟩ := nodup_parts hnd
    by_cases hit : i = t
    · subst hit
      simp [appendChildList, apAll, apAll_id i ks cs hics, apAll_id i ks ns hins]
    · have hm2 : t ∈ idsList cs ∨ t ∈ idsList ns := by
        rw [idsList] at hm
        rcases List.mem_cons.mp hm with h | h
        · exact absurd h.symm hit
        · exact List.mem_append.mp h
      rcases hm2 with hmcs | hmns
      · have hnns : t ∉ idsList ns := fun h => hdisj hmcs h
        simp [appendChildList, hit, ihc hndcs hmcs, apAll, apAll_id t ks ns hnns]
      · by_cases hmcs : t ∈ idsList cs
        · exact absurd hmns (hdisj hmcs)
        · simp [appendChildList, hit, appendChildList_none cs t ks hmcs,
            ihn hndns hmns, apAll, apAll_id t ks cs hmcs]

theorem findNode_append (a b : List TreeNode) (j : String) :
    findNode (a ++ b) j =
      match findNode a j with
      | some r => some r
      | none => findNode b j := by
  induction a with
  | nil => simp [findNode]
  | cons x ns ih =>
    cases x with
    | mk i nm cs =>
      by_cases hij : i = j
      · simp [findNode, hij]
      · simp only [List.cons_append, findNode, if_neg hij]
        cases hcs : findNode cs j with
        | some r => simp
        | none => simp [ih]

theorem findNode_apAll (l : List TreeNode) (t : String) (ks : List TreeNode)
    (j : String) (hj : j ∉ idsList ks) :
    findNode (apAll t ks l) j = (findNode l j).map
      (fun x => TreeNode.mk x.id x.name
        (apAll t ks x.children ++ if x.id = t then ks else [])) := by
  induction l using forestInduction with
  | hnil => simp [apAll, findNode]
  | hcons i nm cs ns ihc ihn =>
    by_cases hij : i = j
    · simp [apAll, findNode, hij, TreeNode.id, TreeNode.name, TreeNode.children]
    · simp only [apAll, findNode, if_neg hij]
      cases hcase : findNode cs j with
      | some r =>
        have h1 : findNode (apAll t ks cs) j = some (TreeNode.mk r.id r.name
            (apAll t ks r.children ++ if r.id = t then ks else [])) := by
          rw [ihc, hcase]
          rfl
        rw [findNode_append, h1]
        simp
      | none =>
        have h1 : findNode (apAll t ks cs) j = none := by
          rw [ihc, hcase]
          rfl
        have h2 : findNode (if i = t then ks else []) j = none := by
          split
          · exact (findNode_eq_none ks j).mpr hj
          · simp [findNode]
        rw [findNode_append, h1, h2, ihn]

theorem allNodes_apAll (l : List TreeNode) (t : String) (ks : List TreeNode)
    (x : TreeNode) (hx : x ∈ allNodes (apAll t ks l)) :
    (∃ y ∈ allNodes l, x = TreeNode.mk y.id y.name
      (apAll t ks y.children ++ if y.id = t then ks else [])) ∨ x ∈ allNodes ks := by
  induction l using forestInduction with
  | hnil => simp [apAll, allNodes] at hx
  | hcons i nm cs ns ihc ihn =>
    simp only [apAll, allNodes, List.mem_cons, allNodes_append, List.mem_append] at hx
    rcases hx with rfl | ((hx | hx) | hx)
    · refine Or.inl ⟨TreeNode.mk i nm cs, by simp [allNodes], ?_⟩
      simp [TreeNode.id, TreeNode.name, TreeNode.children]
    · rcases ihc hx with ⟨y, hy, hxy⟩ | h
      · exact Or.inl ⟨y, by simp [allNodes, hy], hxy⟩
      · exact Or.inr h
    · by_cases hit : i = t
      · rw [if_pos hit] at hx
        exact Or.inr hx
      · rw [if_neg hit] at hx
        simp [allNodes] at hx
    · rcases ihn hx with ⟨y, hy, hxy⟩ | h
      · exact Or.inl ⟨y, by simp [allNodes, hy], hxy⟩
      · exact Or.inr h

theorem mem_apAll_of_unrelated (l : List TreeNode) (t : String) (ks : List TreeNode)
    (m : TreeNode) (hm : m ∈ allNodes l) (ht : t ∉ subtreeIds m) :
    m ∈ allNodes (apAll t ks l) := by
  induction l using forestInduction with
  | hnil => simp [allNodes] at hm
  | hcons i nm cs ns ihc ihn =>
    simp only [allNodes, List.mem_cons, List.mem_append] at hm
    rcases hm with rfl | hm | hm
    · have hit : i ≠ t := fun h => ht (by simp [subtreeIds, TreeNode.id, h])
      have htcs : t ∉ idsList cs := fun h =>
        ht (by simp [subtreeIds, TreeNode.children, h])
      simp [apAll, hit, apAll_id t ks cs htcs, allNodes]
    · simp only [apAll, allNodes, List.mem_cons, allNodes_append, List.mem_append]
      exact Or.inr (Or.inl (Or.inl (ihc hm)))
    · simp only [apAll, allNodes, List.mem_cons, allNodes_append, List.mem_append]
      exact Or.inr (Or.inr (ihn hm))

theorem findNode_rmAll (l : List TreeNode) (n j : String) (hjn : j ≠ n)
    (hav : ∀ x ∈ allNodes l, x.id = n → j ∉ subtreeIds x) :
    findNode (rmAll n l) j =
      (findNode l j).map (fun x => TreeNode.mk x.id x.name (rmAll n x.children)) := by
  induction l using forestInduction with
  | hnil => simp [rmAll, findNode]
  | hcons i nm cs ns ihc ihn =>
    have havcs : ∀ x ∈ allNodes cs, x.id = n → j ∉ subtreeIds x :=
      fun x hx => hav x (by simp [allNodes, hx])
    have havns : ∀ x ∈ allNodes ns, x.id = n → j ∉ subtreeIds x :=
      fun x hx => hav x (by simp [allNodes, hx])
    by_cases hin : i = n
    · have hij : ¬ i = j := fun h => hjn (h.symm.trans hin)
      have hsub : j ∉ subtreeIds (TreeNode.mk i nm cs) :=
        hav (TreeNode.mk i nm cs) (by simp [allNodes]) hin
      have hjcs : j ∉ idsList cs := fun h =>
        hsub (by simp [subtreeIds, TreeNode.children, h])
      have hfcs : findNode cs j = none := (findNode_eq_none cs j).mpr hjcs
      simp only [rmAll, if_pos hin, findNode, if_neg hij, hfcs]
      exact ihn havns
    · by_cases hij : i = j
      · simp [rmAll, hin, findNode, hij, hjn, TreeNode.id, TreeNode.name, TreeNode.children]
      · simp only [rmAll, if_neg hin, findNode, if_neg hij]
        cases hcase : findNode cs j with
        | some r =>
          have h1 : findNode (rmAll n cs) j = some (TreeNode.mk r.id r.name
              (rmAll n r.children)) := by
            rw [ihc havcs, hcase]
            rfl
          rw [h1]
          simp
        | none =>
          have h1 : findNode (rmAll n cs) j = none := by
            rw [ihc havcs, hcase]
            rfl
          rw [h1, ihn havns]

/-- **C2**: with unique ids, node `n` (with children) present, and a valid
target `t` (not `n`, not a descendant of `n`): reassign-delete equals the
clean transform "append `n`'s children at `t`, then drop `n`'s node"; the
target's children afterwards are its pre-existing children (minus `n`'s
subtree if it sat among them) followed by `n`'s former children verbatim, in
order; `n`'s id is gone; and every subtree containing neither `n` nor `t`
survives unchanged. -/
theorem claim_C2_reassign_delete (F : Forest) (n t : String) (nd td : TreeNode)
    (hnodup : (idsList F).Nodup)
    (hn : findNode F n = some nd) (ht : findNode F t = some td)
    (hne : t ≠ n) (hdesc : t ∉ idsList nd.children)
    (hch : nd.children ≠ []) :
    confirmReassignChildren F n t = rmAll n (apAll t nd.children F) ∧
    findNode (confirmReassignChildren F n t) t =
      some (TreeNode.mk t td.name (rmAll n td.children ++ nd.children)) ∧
    n ∉ idsList (confirmReassignChildren F n t) ∧
    (∀ m ∈ allNodes F, n ∉ subtreeIds m → t ∉ subtreeIds m →
      m ∈ allNodes (confirmReassignChildren F n t)) := by
  have _hch := hch
  obtain ⟨ndid, ndmem⟩ := findNode_spec F n nd hn
  obtain ⟨tdid, tdmem⟩ := findNode_spec F t td ht
  have hnks : n ∉ idsList nd.children := by
    have h := subtreeIds_nodup F hnodup nd ndmem
    rw [subtreeIds, List.nodup_cons, ndid] at h
    exact h.1
  have httd : t ∉ idsList td.children := by
    have h := subtreeIds_nodup F hnodup td tdmem
    rw [subtreeIds, List.nodup_cons, tdid] at h
    exact h.1
  have htm : t ∈ idsList F := tdid ▸ mem_allNodes_id F td tdmem
  have hnm : n ∈ idsList F := ndid ▸ mem_allNodes_id F nd ndmem
  have hdescB : isDescendant F n t = false := by
    unfold isDescendant
    rw [hn]
    cases hc : containsId nd.children t with
    | false => exact hc
    | true => exact absurd ((containsId_iff _ _).mp hc) hdesc
  have happend : appendChildList F t nd.children = some (apAll t nd.children F) :=
    appendChildList_eq_apAll F t nd.children hnodup htm
  have hR : confirmReassignChildren F n t = removeNode (apAll t nd.children F) n := by
    unfold confirmReassignChildren
    rw [if_neg hne, if_neg (by rw [hdescB]; simp)]
    simp only [hn, ht, happend]
  have hremove : removeNode (apAll t nd.children F) n =
      rmAll n (apAll t nd.children F) := by
    have hcount := idsList_apAll t nd.children F n hnks
    have hc2 : (idsList (apAll t nd.children F)).count n ≤ 1 := by
      rw [hcount]
      exact List.nodup_iff_count_le_one.mp hnodup n
    have hmG : n ∈ idsList (apAll t nd.children F) :=
      List.one_le_count_iff.mp (by
        rw [hcount]
        exact List.one_le_count_iff.mpr hnm)
    obtain ⟨-, hroot⟩ := removeScan_eq_rmAll (apAll t nd.children F) n hc2 hmG
    simp [removeNode, hroot]
  have ha : confirmReassignChildren F n t = rmAll n (apAll t nd.children F) := by
    rw [hR, hremove]
  have hGn : ∀ x ∈ allNodes (apAll t nd.children F), x.id = n →
      x = TreeNode.mk n nd.name nd.children := by
    intro x hx hxn
    rcases allNodes_apAll F t nd.children x hx with ⟨y, hy, hxy⟩ | hks
    · have hyn : y.id = n := by
        rw [hxy] at hxn
        simpa [TreeNode.id] using hxn
      have hynd : y = nd := allNodes_id_unique F hnodup y nd hy ndmem (by rw [hyn, ndid])
      rw [hxy, hynd, ndid, if_neg (Ne.symm hne),
        apAll_id t nd.children nd.children hdesc, List.append_nil]
    · exact absurd (hxn ▸ mem_allNodes_id nd.children x hks) hnks
  have havT : ∀ x ∈ allNodes (apAll t nd.children F), x.id = n →
      t ∉ subtreeIds x := by
    intro x hx hxn
    rw [hGn x hx hxn]
    simp only [subtreeIds, TreeNode.id, TreeNode.children, List.mem_cons]
    push_neg
    exact ⟨hne, hdesc⟩
  have hfG : findNode (apAll t nd.children F) t =
      some (TreeNode.mk t td.name (td.children ++ nd.children)) := by
    rw [findNode_apAll F t nd.children t hdesc, ht]
    simp [tdid, apAll_id t nd.children td.children httd]
  have hfR : findNode (rmAll n (apAll t nd.children F)) t =
      some (TreeNode.mk t td.name (rmAll n td.children ++ nd.children)) := by
    rw [findNode_rmAll (apAll t nd.children F) n t hne havT, hfG, Option.map_some']
    show some (TreeNode.mk t td.name (rmAll n (td.children ++ nd.children))) = _
    rw [rmAll_append, rmAll_id n nd.children hnks]
  refine ⟨ha, ?_, ?_, ?_⟩
  · rw [ha]
    exact hfR
  · rw [ha]
    exact not_mem_idsList_rmAll n _
  · intro m hm hnm2 htm2
    rw [ha]
    by_cases hks : m ∈ allNodes nd.children
    · have htmem : TreeNode.mk t td.name (rmAll n td.children ++ nd.children) ∈
          allNodes (rmAll n (apAll t nd.children F)) :=
        (findNode_spec _ t _ hfR).2
      apply mem_allNodes_trans _ _ m htmem
      simp only [TreeNode.children, allNodes_append, List.mem_append]
      exact Or.inr hks
    · have hmG : m ∈ allNodes (apAll t nd.children F) :=
        mem_apAll_of_unrelated F t nd.children m hm htm2
      apply mem_rmAll_of_unrelated _ n m hmG hnm2
      intro x hx hxn
      rw [hGn x hx hxn]
      simpa [TreeNode.children] using hks

theorem claim_C2_reassign_delete_witness :
    confirmReassignChildren
        [TreeNode.mk "a" "A" [TreeNode.mk "b" "B" []], TreeNode.mk "d" "D" []] "a" "d" =
      rmAll "a" (apAll "d" (TreeNode.mk "a" "A" [TreeNode.mk "b" "B" []]).children
        [TreeNode.mk "a" "A" [TreeNode.mk "b" "B" []], TreeNode.mk "d" "D" []]) :=
  (claim_C2_reassign_delete _ "a" "d"
    (TreeNode.mk "a" "A" [TreeNode.mk "b" "B" []]) (TreeNode.mk "d" "D" [])
    (by simp [idsList]) (by simp [findNode]) (by simp [findNode])
    (by decide) (by simp [TreeNode.children, idsList])
    (by simp [TreeNode.children])).1

/-! ### C4: the layout assigns depths as levels, consecutive leaf rows and
child means -/

theorem posGet_append (a b : List (String × Pos)) (j : String) :
    posGet (a ++ b) j =
      match posGet b j with
      | some p => some p
      | none => posGet a j := by
  induction a with
  | nil =>
    cases hb : posGet b j <;> simp [posGet, hb]
  | cons e es ih =>
    cases hb : posGet b j <;> cases he : posGet es j <;>
      simp [posGet, ih, hb, he]

theorem posGet_none (a : List (String × Pos)) (j : String)
    (h : j ∉ a.map Prod.fst) : posGet a j = none := by
  induction a with
  | nil => simp [posGet]
  | cons e es ih =>
    simp only [List.map_cons, List.mem_cons] at h
    push_neg at h
    simp [posGet, ih h.2, Ne.symm h.1]

theorem walkList_length_ys (ts : List TreeNode) (lvl c : Nat) :
    (walkList ts lvl c).2.2.length = ts.length := by
  induction ts generalizing c with
  | nil => simp [walkList]
  | cons t ts ih => simp [walkList, ih]

theorem leafIds_cons (t : TreeNode) (ts : List TreeNode) :
    leafIds (t :: ts) = leafIds [t] ++ leafIds ts := by
  cases t with
  | mk i nm cs =>
    cases cs with
    | nil => simp [leafIds]
    | cons c cs2 => simp [leafIds]

theorem leafIds_subset (ts : List TreeNode) (j : String) (h : j ∈ leafIds ts) :
    j ∈ idsList ts := by
  induction ts using forestInduction with
  | hnil => simp [leafIds] at h
  | hcons i nm cs ns ihc ihn =>
    cases cs with
    | nil =>
      rcases List.mem_cons.mp (by simpa [leafIds] using h) with rfl | h2
      · simp [idsList]
      · simp [idsList, ihn h2]
    | cons c cs2 =>
      rcases List.mem_append.mp (by simpa [leafIds] using h) with h2 | h2
      · simp [idsList, ihc h2]
      · simp [idsList, ihn h2]

theorem depthIn_mem (l : List TreeNode) (j : String) (d : Nat)
    (h : depthIn l j = some d) : j ∈ idsList l := by
  induction l using forestInduction generalizing d with
  | hnil => simp [depthIn] at h
  | hcons i nm cs ns ihc ihn =>
    simp only [depthIn] at h
    by_cases hij : i = j
    · simp [idsList, hij]
    · rw [if_neg hij] at h
      cases hcs : depthIn cs j with
      | some d2 => simp [idsList, ihc d2 hcs]
      | none =>
        rw [hcs] at h
        simp [idsList, ihn d h]

theorem depthIn_isSome (l : List TreeNode) (j : String) (h : j ∈ idsList l) :
    ∃ d, depthIn l j = some d := by
  induction l using forestInduction with
  | hnil => simp [idsList] at h
  | hcons i nm cs ns ihc ihn =>
    by_cases hij : i = j
    · exact ⟨0, by simp [depthIn, hij]⟩
    · rw [idsList] at h
      rcases List.mem_cons.mp h with h2 | h2
      · exact absurd h2.symm hij
      · rcases List.mem_append.mp h2 with h3 | h3
        · obtain ⟨d, hd⟩ := ihc h3
          exact ⟨d + 1, by simp [depthIn, hij, hd]⟩
        · obtain ⟨d, hd⟩ := ihn h3
          cases hcs : depthIn cs j with
          | some d2 => exact ⟨d2 + 1, by simp [depthIn, hij, hcs]⟩
          | none => exact ⟨d, by simp [depthIn, hij, hcs, hd]⟩

mutual

theorem walkNode_leafY : ∀ (t : TreeNode) (lvl c : Nat),
    (walkNode t lvl c).2.1 = c + (leafIds [t]).length
  | .mk i nm [], lvl, c => by simp [walkNode, leafIds]
  | .mk i nm (ch :: cs), lvl, c => by
    simp [walkNode, leafIds, walkList_leafY (ch :: cs) (lvl + 1) c]

theorem walkList_leafY : ∀ (ts : List TreeNode) (lvl c : Nat),
    (walkList ts lvl c).2.1 = c + (leafIds ts).length
  | [], lvl, c => by simp [walkList, leafIds]
  | t :: ts, lvl, c => by
    rw [leafIds_cons]
    simp [walkList, walkNode_leafY t lvl c,
      walkList_leafY ts lvl (c + (leafIds [t]).length), Nat.add_assoc]

end

mutual

theorem keys_walkNode : ∀ (t : TreeNode) (lvl c : Nat) (j : String),
    j ∈ (walkNode t lvl c).1.map Prod.fst ↔ j ∈ subtreeIds t
  | .mk i nm [], lvl, c, j => by
    simp [walkNode, subtreeIds, TreeNode.id, TreeNode.children, idsList]
  | .mk i nm (ch :: cs), lvl, c, j => by
    simp only [walkNode, List.map_append, List.mem_append,
      keys_walkList (ch :: cs) (lvl + 1) c j, subtreeIds, TreeNode.id,
      TreeNode.children, List.mem_cons]
    simp [or_comm]

theorem keys_walkList : ∀ (ts : List TreeNode) (lvl c : Nat) (j : String),
    j ∈ (walkList ts lvl c).1.map Prod.fst ↔ j ∈ idsList ts
  | [], lvl, c, j => by simp [walkList, idsList]
  | t :: ts, lvl, c, j => by
    have h1 := keys_walkNode t lvl c j
    have h2 := keys_walkList ts lvl (walkNode t lvl c).2.1 j
    cases t with
    | mk i nm cs =>
      simp only [walkList, List.map_append, List.mem_append, h1, h2,
        subtreeIds, TreeNode.id, TreeNode.children, idsList, List.mem_cons,
        List.mem_append]
      tauto

end

theorem walkNode_self (t : TreeNode) (lvl c : Nat) :
    posGet (walkNode t lvl c).1 t.id = some ⟨lvl, (walkNode t lvl c).2.2⟩ := by
  cases t with
  | mk i nm cs =>
    cases cs with
    | nil => simp [walkNode, posGet, TreeNode.id]
    | cons ch cs2 =>
      simp only [walkNode, TreeNode.id]
      rw [posGet_append]
      simp [posGet]

theorem posGet_append_left (a b : List (String × Pos)) (j : String)
    (hb : j ∉ b.map Prod.fst) : posGet (a ++ b) j = posGet a j := by
  rw [posGet_append, posGet_none b j hb]

theorem posGet_append_outside (a b : List (String × Pos)) (j : String)
    (ha : j ∉ a.map Prod.fst) : posGet (a ++ b) j = posGet b j := by
  rw [posGet_append]
  cases hb : posGet b j <;> simp [hb, posGet_none a j ha]

theorem walkList_children (ts : List TreeNode) (lvl c : Nat)
    (hnd : (idsList ts).Nodup) :
    ts.map (fun ch => (posGet (walkList ts lvl c).1 ch.id).map Pos.y) =
      (walkList ts lvl c).2.2.map some := by
  induction ts generalizing c with
  | nil => simp [walkList]
  | cons t ts ih =>
    cases t with
    | mk i nm cs =>
      obtain ⟨hics, hins, hndcs, hndns, hdisj⟩ := nodup_parts hnd
      simp only [walkList, List.map_cons]
      congr 1
      · have hb : (TreeNode.mk i nm cs).id ∉
            (walkList ts lvl ((walkNode (TreeNode.mk i nm cs) lvl c).2.1)).1.map
              Prod.fst := by
          rw [keys_walkList]
          exact hins
        rw [posGet_append_left _ _ _ hb, walkNode_self]
        rfl
      · rw [List.map_congr_left (fun ch hch => ?_), ih _ hndns]
        have hcid : ch.id ∈ idsList ts :=
          mem_allNodes_id ts ch (mem_allNodes_of_mem ts ch hch)
        have ha : ch.id ∉ (walkNode (TreeNode.mk i nm cs) lvl c).1.map Prod.fst := by
          rw [keys_walkNode]
          simp only [subtreeIds, TreeNode.id, TreeNode.children, List.mem_cons]
          push_neg
          exact ⟨fun h => hins (h ▸ hcid), fun h => hdisj h hcid⟩
        rw [posGet_append_outside _ _ _ ha]

theorem posGet_strip (i nm : String) (ch : TreeNode) (cs2 ns : List TreeNode)
    (lvl c : Nat) (j : String) (hji : j ≠ i) (hjns : j ∉ idsList ns) :
    posGet (walkList (TreeNode.mk i nm (ch :: cs2) :: ns) lvl c).1 j =
      posGet (walkList (ch :: cs2) (lvl + 1) c).1 j := by
  have hb : j ∉ (walkList ns lvl
      ((walkNode (TreeNode.mk i nm (ch :: cs2)) lvl c).2.1)).1.map Prod.fst := by
    rw [keys_walkList]
    exact hjns
  simp only [walkList]
  rw [posGet_append_left _ _ _ hb]
  simp only [walkNode]
  rw [posGet_append_left _ _ _ (by simpa using hji)]
  simp only [walkList]

theorem walkList_levels (ts : List TreeNode) (lvl c : Nat)
    (hnd : (idsList ts).Nodup) (j : String) (d : Nat)
    (hd : depthIn ts j = some d) :
    ∃ p, posGet (walkList ts lvl c).1 j = some p ∧ p.level = lvl + d := by
  induction ts using forestInduction generalizing lvl c d with
  | hnil => simp [depthIn] at hd
  | hcons i nm cs ns ihc ihn =>
    obtain ⟨hics, hins, hndcs, hndns, hdisj⟩ := nodup_parts hnd
    simp only [depthIn] at hd
    by_cases hij : i = j
    · rw [if_pos hij] at hd
      obtain rfl : (0 : Nat) = d := by simpa using hd
      have hb : j ∉ (walkList ns lvl
          ((walkNode (TreeNode.mk i nm cs) lvl c).2.1)).1.map Prod.fst := by
        rw [keys_walkList]
        exact hij ▸ hins
      refine ⟨⟨lvl, (walkNode (TreeNode.mk i nm cs) lvl c).2.2⟩, ?_, by simp⟩
      simp only [walkList]
      rw [posGet_append_left _ _ _ hb]
      have := walkNode_self (TreeNode.mk i nm cs) lvl c
      rw [show (TreeNode.mk i nm cs).id = j from hij] at this
      exact this
    · rw [if_neg hij] at hd
      cases hcs : depthIn cs j with
      | some d2 =>
        rw [hcs] at hd
        obtain rfl : d2 + 1 = d := by simpa using hd
        have hjcs : j ∈ idsList cs := depthIn_mem cs j d2 hcs
        have hjns : j ∉ idsList ns := fun h => hdisj hjcs h
        cases cs with
        | nil => simp [idsList] at hjcs
        | cons ch cs2 =>
          rw [posGet_strip i nm ch cs2 ns lvl c j (fun h => hij h.symm) hjns]
          obtain ⟨p, hp, hlvl⟩ := ihc (lvl + 1) c hndcs d2 hcs
          exact ⟨p, hp, by omega⟩
      | none =>
        rw [hcs] at hd
        have hjcs : j ∉ idsList cs := fun h => by
          obtain ⟨d2, hd2⟩ := depthIn_isSome cs j h
          rw [hd2] at hcs
          exact Option.noConfusion hcs
        have ha : j ∉ (walkNode (TreeNode.mk i nm cs) lvl c).1.map Prod.fst := by
          rw [keys_walkNode]
          simp only [subtreeIds, TreeNode.id, TreeNode.children, List.mem_cons]
          push_neg
          exact ⟨fun h => hij h.symm, hjcs⟩
        simp only [walkList]
        rw [posGet_append_outside _ _ _ ha]
        exact ihn lvl _ hndns d hd

theorem walkList_leaf_ys (ts : List TreeNode) (lvl c : Nat)
    (hnd : (idsList ts).Nodup) :
    (leafIds ts).map (fun j => (posGet (walkList ts lvl c).1 j).map Pos.y) =
      (List.range (leafIds ts).length).map (fun k => some ((c + k : Nat) : Rat)) := by
  induction ts using forestInduction generalizing lvl c with
  | hnil => simp [leafIds, walkList]
  | hcons i nm cs ns ihc ihn =>
    obtain ⟨hics, hins, hndcs, hndns, hdisj⟩ := nodup_parts hnd
    cases cs with
    | nil =>
      have hleaf : leafIds (TreeNode.mk i nm [] :: ns) = i :: leafIds ns := by
        simp [leafIds]
      rw [hleaf, List.length_cons, List.range_succ_eq_map, List.map_cons,
        List.map_cons, List.map_map]
      congr 1
      · simp only [walkList]
        rw [posGet_append_left _ _ _ (by rw [keys_walkList]; exact hins)]
        have hself := walkNode_self (TreeNode.mk i nm []) lvl c
        rw [show (TreeNode.mk i nm []).id = i from rfl] at hself
        rw [hself]
        have hy : (walkNode (TreeNode.mk i nm []) lvl c).2.2 = (c : Rat) := by
          simp [walkNode]
        rw [hy]
        norm_num
      · have htrans : ∀ j ∈ leafIds ns,
            (posGet (walkList (TreeNode.mk i nm [] :: ns) lvl c).1 j).map Pos.y =
            (posGet (walkList ns lvl
              ((walkNode (TreeNode.mk i nm []) lvl c).2.1)).1 j).map Pos.y := by
          intro j hj
          have hjns : j ∈ idsList ns := leafIds_subset ns j hj
          have ha : j ∉ (walkNode (TreeNode.mk i nm []) lvl c).1.map Prod.fst := by
            rw [keys_walkNode]
            simp only [subtreeIds, TreeNode.id, TreeNode.children, idsList,
              List.mem_cons, List.not_mem_nil, or_false]
            exact fun h => hins (h ▸ hjns)
          simp only [walkList]
          rw [posGet_append_outside _ _ _ ha]
        rw [List.map_congr_left htrans, ihn lvl _ hndns]
        have hc1 : (walkNode (TreeNode.mk i nm []) lvl c).2.1 = c + 1 := by
          simp [walkNode]
        rw [hc1]
        apply List.map_congr_left
        intro k hk
        simp only [Function.comp]
        congr 1
        push_cast
        ring
    | cons ch cs2 =>
      have hleaf : leafIds (TreeNode.mk i nm (ch :: cs2) :: ns) =
          leafIds (ch :: cs2) ++ leafIds ns := by
        simp [leafIds]
      have hcnt : (walkNode (TreeNode.mk i nm (ch :: cs2)) lvl c).2.1 =
          c + (leafIds (ch :: cs2)).length := by
        rw [walkNode_leafY]
        congr 1
        cases ch with
        | mk ci cnm ccs =>
          cases ccs <;> simp [leafIds]
      rw [hleaf, List.map_append, List.length_append, List.range_add,
        List.map_append, List.map_map]
      congr 1
      · have htrans : ∀ j ∈ leafIds (ch :: cs2),
            (posGet (walkList (TreeNode.mk i nm (ch :: cs2) :: ns) lvl c).1 j).map
              Pos.y =
            (posGet (walkList (ch :: cs2) (lvl + 1) c).1 j).map Pos.y := by
          intro j hj
          have hjcs : j ∈ idsList (ch :: cs2) := leafIds_subset _ j hj
          rw [posGet_strip i nm ch cs2 ns lvl c j (fun h => hics (h ▸ hjcs))
            (fun h => hdisj hjcs h)]
        rw [List.map_congr_left htrans, ihc (lvl + 1) c hndcs]
      · have htrans : ∀ j ∈ leafIds ns,
            (posGet (walkList (TreeNode.mk i nm (ch :: cs2) :: ns) lvl c).1 j).map
              Pos.y =
            (posGet (walkList ns lvl
              ((walkNode (TreeNode.mk i nm (ch :: cs2)) lvl c).2.1)).1 j).map
              Pos.y := by
          intro j hj
          have hjns : j ∈ idsList ns := leafIds_subset ns j hj
          have ha : j ∉
              (walkNode (TreeNode.mk i nm (ch :: cs2)) lvl c).1.map Prod.fst := by
            rw [keys_walkNode]
            simp only [subtreeIds, TreeNode.id, TreeNode.children, List.mem_cons]
            push_neg
            exact ⟨fun h => hins (h ▸ hjns), fun h => hdisj h hjns⟩
          simp only [walkList]
          rw [posGet_append_outside _ _ _ ha]
        rw [List.map_congr_left htrans, ihn lvl _ hndns, hcnt]
        apply List.map_congr_left
        intro k hk
        simp only [Function.comp]
        congr 1
        push_cast
        ring

theorem walkList_means (ts : List TreeNode) (lvl c : Nat)
    (hnd : (idsList ts).Nodup) (m : TreeNode) (hm : m ∈ allNodes ts)
    (hch : m.children ≠ []) :
    ∃ (p : Pos) (ys : List Rat), posGet (walkList ts lvl c).1 m.id = some p ∧
      m.children.map (fun chn => (posGet (walkList ts lvl c).1 chn.id).map Pos.y) =
        ys.map some ∧
      ys.length = m.children.length ∧
      p.y = ys.sum / (max ys.length 1 : Rat) := by
  induction ts using forestInduction generalizing lvl c with
  | hnil => simp [allNodes] at hm
  | hcons i nm cs ns ihc ihn =>
    obtain ⟨hics, hins, hndcs, hndns, hdisj⟩ := nodup_parts hnd
    simp only [allNodes, List.mem_cons, List.mem_append] at hm
    rcases hm with rfl | hm | hm
    · cases cs with
      | nil => simp [TreeNode.children] at hch
      | cons ch cs2 =>
        refine ⟨⟨lvl, (walkNode (TreeNode.mk i nm (ch :: cs2)) lvl c).2.2⟩,
          (walkList (ch :: cs2) (lvl + 1) c).2.2, ?_, ?_, ?_, ?_⟩
        · simp only [walkList]
          rw [posGet_append_left _ _ _ (by rw [keys_walkList]; exact hins)]
          have hself := walkNode_self (TreeNode.mk i nm (ch :: cs2)) lvl c
          rw [show (TreeNode.mk i nm (ch :: cs2)).id = i from rfl] at hself
          exact hself
        · have htrans : ∀ chn ∈ (TreeNode.mk i nm (ch :: cs2)).children,
              (posGet (walkList (TreeNode.mk i nm (ch :: cs2) :: ns) lvl c).1
                chn.id).map Pos.y =
              (posGet (walkList (ch :: cs2) (lvl + 1) c).1 chn.id).map Pos.y := by
            intro chn hchn
            have hcid : chn.id ∈ idsList (ch :: cs2) :=
              mem_allNodes_id _ chn (mem_allNodes_of_mem _ chn hchn)
            rw [posGet_strip i nm ch cs2 ns lvl c chn.id
              (fun h => hics (h ▸ hcid)) (fun h => hdisj hcid h)]
          rw [List.map_congr_left htrans]
          exact walkList_children (ch :: cs2) (lvl + 1) c hndcs
        · rw [walkList_length_ys]
          rfl
        · simp [walkNode]
    · cases cs with
      | nil => simp [allNodes] at hm
      | cons ch cs2 =>
        obtain ⟨p, ys, h1, h2, h3, h4⟩ := ihc (lvl + 1) c hndcs hm
        refine ⟨p, ys, ?_, ?_, h3, h4⟩
        · have hmid : m.id ∈ idsList (ch :: cs2) := mem_allNodes_id _ m hm
          rw [posGet_strip i nm ch cs2 ns lvl c m.id (fun h => hics (h ▸ hmid))
            (fun h => hdisj hmid h)]
          exact h1
        · have htrans : ∀ chn ∈ m.children,
              (posGet (walkList (TreeNode.mk i nm (ch :: cs2) :: ns) lvl c).1
                chn.id).map Pos.y =
              (posGet (walkList (ch :: cs2) (lvl + 1) c).1 chn.id).map Pos.y := by
            intro chn hchn
            have hcid : chn.id ∈ idsList (ch :: cs2) :=
              mem_allNodes_id _ chn
                (mem_allNodes_trans _ m chn hm (mem_allNodes_of_mem _ chn hchn))
          
            rw [posGet_strip i nm ch cs2 ns lvl c chn.id
              (fun h => hics (h ▸ hcid)) (fun h => hdisj hcid h)]
          rw [List.map_congr_left htrans]
          exact h2
    · obtain ⟨p, ys, h1, h2, h3, h4⟩ :=
        ihn lvl ((walkNode (TreeNode.mk i nm cs) lvl c).2.1) hndns hm
      have hout : ∀ j, j ∈ idsList ns →
          posGet (walkList (TreeNode.mk i nm cs :: ns) lvl c).1 j =
          posGet (walkList ns lvl
            ((walkNode (TreeNode.mk i nm cs) lvl c).2.1)).1 j := by
        intro j hjns
        have ha : j ∉ (walkNode (TreeNode.mk i nm cs) lvl c).1.map Prod.fst := by
          rw [keys_walkNode]
          simp only [subtreeIds, TreeNode.id, TreeNode.children, List.mem_cons]
          push_neg
          exact ⟨fun h => hins (h ▸ hjns), fun h => hdisj h hjns⟩
        simp only [walkList]
        rw [posGet_append_outside _ _ _ ha]
      refine ⟨p, ys, ?_, ?_, h3, h4⟩
      · rw [hout m.id (mem_allNodes_id ns m hm)]
        exact h1
      · have htrans : ∀ chn ∈ m.children,
            (posGet (walkList (TreeNode.mk i nm cs :: ns) lvl c).1 chn.id).map
              Pos.y =
            (posGet (walkList ns lvl
              ((walkNode (TreeNode.mk i nm cs) lvl c).2.1)).1 chn.id).map Pos.y := by
          intro chn hchn
          rw [hout chn.id (mem_allNodes_id ns chn
            (mem_allNodes_trans ns m chn hm (mem_allNodes_of_mem _ chn hchn)))]
        rw [List.map_congr_left htrans]
        exact h2

theorem depthIn_none (l : List TreeNode) (j : String) (h : j ∉ idsList l) :
    depthIn l j = none := by
  cases hd : depthIn l j with
  | none => rfl
  | some d => exact absurd (depthIn_mem l j d hd) h

theorem depth_ancestor (ts : List TreeNode) (hnd : (idsList ts).Nodup)
    (a b : TreeNode) (ha : a ∈ allNodes ts) (hb : b ∈ allNodes a.children) :
    ∃ da db, depthIn ts a.id = some da ∧ depthIn ts b.id = some db ∧ da < db := by
  induction ts using forestInduction with
  | hnil => simp [allNodes] at ha
  | hcons i nm cs ns ihc ihn =>
    obtain ⟨hics, hins, hndcs, hndns, hdisj⟩ := nodup_parts hnd
    simp only [allNodes, List.mem_cons, List.mem_append] at ha
    rcases ha with rfl | ha | ha
    · have hbcs : b ∈ allNodes cs := by simpa [TreeNode.children] using hb
      have hbid : b.id ∈ idsList cs := mem_allNodes_id cs b hbcs
      obtain ⟨db, hdb⟩ := depthIn_isSome cs b.id hbid
      have hbne : ¬ i = b.id := fun h => hics (h ▸ hbid)
      refine ⟨0, db + 1, ?_, ?_, by omega⟩
      · simp [depthIn, TreeNode.id]
      · simp [depthIn, hbne, hdb]
    · obtain ⟨da, db, h1, h2, h3⟩ := ihc hndcs ha
      have haid : a.id ∈ idsList cs := mem_allNodes_id cs a ha
      have hbid : b.id ∈ idsList cs := mem_allNodes_id cs b
        (mem_allNodes_trans cs a b ha hb)
      have hia : ¬ i = a.id := fun h => hics (h ▸ haid)
      have hib : ¬ i = b.id := fun h => hics (h ▸ hbid)
      refine ⟨da + 1, db + 1, ?_, ?_, by omega⟩
      · simp [depthIn, hia, h1]
      · simp [depthIn, hib, h2]
    · obtain ⟨da, db, h1, h2, h3⟩ := ihn hndns ha
      have haid : a.id ∈ idsList ns := mem_allNodes_id ns a ha
      have hbid : b.id ∈ idsList ns := mem_allNodes_id ns b
        (mem_allNodes_trans ns a b ha hb)
      have hacs : a.id ∉ idsList cs := fun h => hdisj h haid
      have hbcs : b.id ∉ idsList cs := fun h => hdisj h hbid
      have hia : ¬ i = a.id := fun h => hins (h ▸ haid)
      have hib : ¬ i = b.id := fun h => hins (h ▸ hbid)
      refine ⟨da, db, ?_, ?_, h3⟩
      · simp [depthIn, hia, depthIn_none cs a.id hacs, h1]
      · simp [depthIn, hib, depthIn_none cs b.id hbcs, h2]

/-- **C4**: under unique ids, `layoutForest` assigns every node a level equal
to its depth from its own root (roots at 0), so an ancestor's level is
strictly below any of its descendants'; the leaves receive, in traversal
order, exactly the `y`-values `0, 1, …, k-1` from the single forest-wide
counter (`k` = leaf count, no duplicates); and every internal node's `y` is
the arithmetic mean of its children's `y`-values. -/
theorem claim_C4_layout (F : Forest) (hnd : (idsList F).Nodup) :
    (∀ j d, depthIn F j = some d →
      ∃ p, posGet (layoutForest F) j = some p ∧ p.level = d) ∧
    (∀ a ∈ allNodes F, ∀ b ∈ allNodes a.children,
      ∃ pa pb, posGet (layoutForest F) a.id = some pa ∧
        posGet (layoutForest F) b.id = some pb ∧ pa.level < pb.level) ∧
    ((leafIds F).map (fun j => (posGet (layoutForest F) j).map Pos.y) =
      (List.range (leafIds F).length).map (fun k : Nat => some ((k : Rat)))) ∧
    (∀ m ∈ allNodes F, m.children ≠ [] →
      ∃ (p : Pos) (ys : List Rat), posGet (layoutForest F) m.id = some p ∧
        m.children.map (fun chn => (posGet (layoutForest F) chn.id).map Pos.y) =
          ys.map some ∧
        ys.length = m.children.length ∧
        p.y = ys.sum / (ys.length : Rat)) := by
  have hlev : ∀ j d, depthIn F j = some d →
      ∃ p, posGet (layoutForest F) j = some p ∧ p.level = d := by
    intro j d hd
    obtain ⟨p, hp, hl⟩ := walkList_levels F 0 0 hnd j d hd
    exact ⟨p, hp, by omega⟩
  refine ⟨hlev, ?_, ?_, ?_⟩
  · intro a ha b hb
    obtain ⟨da, db, h1, h2, h3⟩ := depth_ancestor F hnd a b ha hb
    obtain ⟨pa, hpa, hla⟩ := hlev a.id da h1
    obtain ⟨pb, hpb, hlb⟩ := hlev b.id db h2
    exact ⟨pa, pb, hpa, hpb, by omega⟩
  · rw [show layoutForest F = (walkList F 0 0).1 from rfl,
      walkList_leaf_ys F 0 0 hnd]
    apply List.map_congr_left
    intro k hk
    norm_num
  · intro m hm hch
    obtain ⟨p, ys, h1, h2, h3, h4⟩ := walkList_means F 0 0 hnd m hm hch
    refine ⟨p, ys, h1, h2, h3, ?_⟩
    have hlen : 1 ≤ ys.length := by
      rw [h3]
      cases hcs : m.children with
      | nil => exact absurd hcs hch
      | cons x xs => simp
    rw [h4, max_eq_left (by exact_mod_cast hlen)]

theorem claim_C4_layout_witness :
    ∃ p, posGet (layoutForest
        [TreeNode.mk "a" "A" [TreeNode.mk "b" "B" [], TreeNode.mk "c" "C" []]]) "b" =
      some p ∧ p.level = 1 :=
  (claim_C4_layout
    [TreeNode.mk "a" "A" [TreeNode.mk "b" "B" [], TreeNode.mk "c" "C" []]]
    (by simp [idsList])).1 "b" 1 (by simp [depthIn])
